import Mathlib

set_option maxRecDepth 100000
set_option maxHeartbeats 2000000

/-!
# Verification of `scripts/download_fonts.py`

A shallow embedding of the font-downloading tool: the CSS `@font-face`
scanner, the value-normalization helpers, the SHA-1 content fingerprint,
the URL handling (`urllib.parse` path extraction and `urljoin`), the
resource-name derivation, the main descriptor-building loop with its
skip-if-present file writes, and the Kotlin bindings emitter.

Strings are modelled as Lean `String`s (lists of characters); bytes as
`List Nat`; the filesystem of the output directory as an association list
from filename to bytes; the network as a function from absolute URL to
the bytes it serves.  Python `dict`s are association lists with
replace-in-place insertion, preserving Python's insertion-order
semantics.  Character classification (`str.isspace`, `\s`) follows
Python's whitespace set; `str.lower`/`str.upper` are modelled on the
ASCII range, which is exact for every character class handled by the
script's patterns.
-/

namespace DownloadFonts

/-! ## Python string primitives -/

/-- Python's whitespace set, as used by `str.strip()` and the regex `\s`. -/
def pyIsSpaceChar (c : Char) : Bool :=
  c = ' ' || c = '\t' || c = '\n' || c = '\r' ||
  c.toNat = 11 || c.toNat = 12 ||
  c.toNat = 28 || c.toNat = 29 || c.toNat = 30 || c.toNat = 31 ||
  c.toNat = 133 || c.toNat = 160 || c.toNat = 5760 ||
  (8192 ≤ c.toNat && c.toNat ≤ 8202) ||
  c.toNat = 8232 || c.toNat = 8233 || c.toNat = 8239 || c.toNat = 8287 ||
  c.toNat = 12288

/-- `str.strip()` on a character list: drop whitespace from both ends. -/
def pyStripList (l : List Char) : List Char :=
  ((l.dropWhile pyIsSpaceChar).reverse.dropWhile pyIsSpaceChar).reverse

/-- Python `str.strip()`. -/
def pyStrip (s : String) : String :=
  String.mk (pyStripList s.data)

/-- ASCII lower-casing of one character (`str.lower`, exact on ASCII). -/
def pyLowerChar (c : Char) : Char := c.toLower

/-- ASCII upper-casing of one character (`str.upper`, exact on ASCII). -/
def pyUpperChar (c : Char) : Char := c.toUpper

/-- Python `str.lower()` (ASCII range). -/
def pyLower (s : String) : String :=
  String.mk (s.data.map pyLowerChar)

/-! ## `clean_value` -/

/-- The enclosing-quote test of `clean_value`:
`value.startswith('"') and value.endswith('"')`, or the same with the
single quote. -/
def quotedEnds (l : List Char) : Prop :=
  (l.head? = some '"' ∧ l.getLast? = some '"') ∨
  (l.head? = some '\'' ∧ l.getLast? = some '\'')

instance (l : List Char) : Decidable (quotedEnds l) := by
  unfold quotedEnds; infer_instance

/-- `clean_value`: strip whitespace, then remove one pair of enclosing
straight quotes when the first and last characters are the same quote.
the quoted branch mirrors the Python slice `value[1:-1]`. -/
def clean_value (value : String) : String :=
  if quotedEnds (pyStripList value.data) then
    String.mk ((pyStripList value.data).drop 1).dropLast
  else
    String.mk (pyStripList value.data)

/-! ## The regex scanners

`re.findall` scans left to right: at each position it attempts a match;
on success it resumes after the match, otherwise it advances one
character.  Each of the three patterns is backtracking-free in the sense
analysed below, so each attempt is a deterministic scan. -/

/-- Case-insensitive literal match (`re.IGNORECASE` on an ASCII literal):
returns the remainder on success. The pattern is given lower-cased. -/
def matchCI : List Char → List Char → Option (List Char)
  | [], cs => some cs
  | _ :: _, [] => none
  | p :: ps, c :: cs => if pyLowerChar c = p then matchCI ps cs else none

theorem matchCI_length : ∀ (ps cs rest : List Char),
    matchCI ps cs = some rest → rest.length + ps.length = cs.length := by
  intro ps
  induction ps with
  | nil => intro cs rest h; simp [matchCI] at h; simp [h]
  | cons p ps ih =>
    intro cs rest h
    cases cs with
    | nil => simp [matchCI] at h
    | cons c cs =>
      simp only [matchCI] at h
      split at h
      · have := ih cs rest h
        simp [List.length_cons]; omega
      · exact absurd h (by simp)

theorem lenDropWhile (p : Char → Bool) (l : List Char) :
    (l.dropWhile p).length ≤ l.length :=
  (List.dropWhile_sublist p).length_le

/-- One attempt of `FONT_FACE_RE` (`@font-face\s*{([^}]*)}`) at the
current position: returns the captured body and the remainder. -/
def tryFontFaceAt (cs : List Char) : Option (List Char × List Char) :=
  match matchCI "@font-face".data cs with
  | none => none
  | some r1 =>
    match r1.dropWhile pyIsSpaceChar with
    | '{' :: r3 =>
      match r3.dropWhile (fun c => !(c = '}')) with
      | '}' :: r5 => some (r3.takeWhile (fun c => !(c = '}')), r5)
      | _ => none
    | _ => none

theorem tryFontFaceAt_length (cs b rest : List Char)
    (h : tryFontFaceAt cs = some (b, rest)) : rest.length < cs.length := by
  unfold tryFontFaceAt at h
  split at h
  · exact absurd h (by simp)
  · rename_i r1 hm
    have h1 : r1.length + 10 = cs.length := matchCI_length _ _ _ hm
    have h2 : (r1.dropWhile pyIsSpaceChar).length ≤ r1.length :=
      lenDropWhile _ _
    split at h
    · rename_i r3 hr2
      have h3 : r3.length < r1.length := by
        have := congrArg List.length hr2
        simp at this; omega
      split at h
      · rename_i r5 hr4
        have h4 : (r3.dropWhile (fun c => !(c = '}'))).length ≤ r3.length :=
          lenDropWhile _ _
        have h5 : r5.length < r3.length := by
          have := congrArg List.length hr4
          simp at this; omega
        have hg : rest = r5 := by
          have h' := h; simp at h'; exact h'.2.symm
        subst hg
        omega
      · exact absurd h (by simp)
    · exact absurd h (by simp)

/-- The scanning loop of `FONT_FACE_RE.findall`, with structural fuel:
at each position attempt a match; on success resume after it, otherwise
advance one character.  A fuel of `cs.length + 1` always suffices, since
every step strictly shortens the text. -/
def fontFaceScan : Nat → List Char → List (List Char)
  | 0, _ => []
  | fuel + 1, cs =>
    match tryFontFaceAt cs with
    | some (b, rest) => b :: fontFaceScan fuel rest
    | none =>
      match cs with
      | [] => []
      | _ :: cs' => fontFaceScan fuel cs'

/-- `FONT_FACE_RE.findall`: the captured bodies, in source order. -/
def fontFaceFindAll (cs : List Char) : List (List Char) :=
  fontFaceScan (cs.length + 1) cs

/-- Characters admitted in a property name by `PROP_RE` (`[a-zA-Z-]`). -/
def isPropNameChar (c : Char) : Bool := c.isAlpha || c = '-'

/-- The value captured by `PROP_RE` from the text `r3` following the
colon, given that a `;` was found with a nonempty chunk before it: the
greedy `\s*` eats the leading whitespace, backtracking by one character
when everything up to the `;` is whitespace, so that `[^;]+` keeps one. -/
def propValueOf (r3 : List Char) : List Char :=
  if ((r3.takeWhile (fun c => !(c = ';'))).dropWhile pyIsSpaceChar).isEmpty then
    (r3.takeWhile (fun c => !(c = ';'))).drop
      ((r3.takeWhile (fun c => !(c = ';'))).length - 1)
  else
    (r3.takeWhile (fun c => !(c = ';'))).dropWhile pyIsSpaceChar

/-- One attempt of `PROP_RE` (`([a-zA-Z-]+)\s*:\s*([^;]+);`) at the
current position. -/
def tryPropAt (cs : List Char) : Option ((List Char × List Char) × List Char) :=
  if (cs.takeWhile isPropNameChar).isEmpty then none
  else
    match (cs.dropWhile isPropNameChar).dropWhile pyIsSpaceChar with
    | ':' :: r3 =>
      match r3.dropWhile (fun c => !(c = ';')) with
      | ';' :: r5 =>
        if (r3.takeWhile (fun c => !(c = ';'))).isEmpty then none
        else some ((cs.takeWhile isPropNameChar, propValueOf r3), r5)
      | _ => none
    | _ => none

theorem tryPropAt_length (cs : List Char) (nv : List Char × List Char)
    (rest : List Char) (h : tryPropAt cs = some (nv, rest)) :
    rest.length < cs.length := by
  unfold tryPropAt at h
  split at h
  · exact absurd h (by simp)
  · rename_i hne
    have hname : ¬(cs.takeWhile isPropNameChar).length = 0 := by
      simpa [List.isEmpty_iff, List.length_eq_zero] using hne
    have hd : (cs.dropWhile isPropNameChar).length + (cs.takeWhile isPropNameChar).length = cs.length := by
      rw [Nat.add_comm, ← List.length_append, List.takeWhile_append_dropWhile]
    have hd2 : ((cs.dropWhile isPropNameChar).dropWhile pyIsSpaceChar).length ≤
        (cs.dropWhile isPropNameChar).length := lenDropWhile _ _
    split at h
    · rename_i r3 hr2
      have h3 : r3.length < cs.length := by
        have := congrArg List.length hr2
        simp at this; omega
      split at h
      · rename_i r5 hr4
        have h4 : (r3.dropWhile (fun c => !(c = ';'))).length ≤ r3.length :=
          lenDropWhile _ _
        have h5 : r5.length < r3.length := by
          have := congrArg List.length hr4
          simp at this; omega
        split at h
        · exact absurd h (by simp)
        · have hg : rest = r5 := by
            have h' := h; simp at h'; exact h'.2.symm
          subst hg
          omega
      · exact absurd h (by simp)
    · exact absurd h (by simp)

/-- The scanning loop of `PROP_RE.findall`, with structural fuel. -/
def propScan : Nat → List Char → List (List Char × List Char)
  | 0, _ => []
  | fuel + 1, cs =>
    match tryPropAt cs with
    | some (nv, rest) => nv :: propScan fuel rest
    | none =>
      match cs with
      | [] => []
      | _ :: cs' => propScan fuel cs'

/-- `PROP_RE.findall`: `(name, value)` capture pairs, in order. -/
def propFindAll (cs : List Char) : List (List Char × List Char) :=
  propScan (cs.length + 1) cs

/-- One attempt of `URL_RE` (`url\(([^)]+)\)`) at the current position. -/
def tryUrlAt (cs : List Char) : Option (List Char × List Char) :=
  match matchCI "url(".data cs with
  | none => none
  | some r1 =>
    match r1.dropWhile (fun c => !(c = ')')) with
    | ')' :: r3 =>
      if (r1.takeWhile (fun c => !(c = ')'))).isEmpty then none
      else some (r1.takeWhile (fun c => !(c = ')')), r3)
    | _ => none

theorem tryUrlAt_length (cs b rest : List Char)
    (h : tryUrlAt cs = some (b, rest)) : rest.length < cs.length := by
  unfold tryUrlAt at h
  split at h
  · exact absurd h (by simp)
  · rename_i r1 hm
    have h1 : r1.length + 4 = cs.length := matchCI_length _ _ _ hm
    split at h
    · rename_i r3 hr2
      have h4 : (r1.dropWhile (fun c => !(c = ')'))).length ≤ r1.length :=
        lenDropWhile _ _
      have h5 : r3.length < r1.length := by
        have := congrArg List.length hr2
        simp at this; omega
      split at h
      · exact absurd h (by simp)
      · have hg : rest = r3 := by
          have h' := h; simp at h'; exact h'.2.symm
        subst hg
        omega
    · exact absurd h (by simp)

/-- The scanning loop of `URL_RE.findall`, with structural fuel. -/
def urlScan : Nat → List Char → List (List Char)
  | 0, _ => []
  | fuel + 1, cs =>
    match tryUrlAt cs with
    | some (b, rest) => b :: urlScan fuel rest
    | none =>
      match cs with
      | [] => []
      | _ :: cs' => urlScan fuel cs'

/-- `URL_RE.findall`: the captured `url(...)` contents, in order. -/
def urlFindAll (cs : List Char) : List (List Char) :=
  urlScan (cs.length + 1) cs

/-! ## Python dicts as association lists -/

/-- One `@font-face` block's properties: a Python dict from property
name to raw value, in insertion order. -/
abbrev Props := List (String × String)

/-- Python dict assignment `d[k] = v`: replace in place if the key is
present, else append. -/
def dictSet : Props → String → String → Props
  | [], k, v => [(k, v)]
  | (k', v') :: rest, k, v =>
    if k' = k then (k, v) :: rest else (k', v') :: dictSet rest k v

/-- Python `d.get(k)`: the value stored under the key, if present. -/
def dictGet? (d : Props) (k : String) : Option String :=
  match d with
  | [] => none
  | (k0, v0) :: rest => if k0 = k then some v0 else dictGet? rest k

/-- Python `d.get(k, dflt)`. -/
def dictGetD (d : Props) (k dflt : String) : String :=
  (dictGet? d k).getD dflt

/-! ## `parse_font_faces` -/

/-- The body of the `for name, value in PROP_RE.findall(block)` loop:
`props[name.strip().lower()] = value.strip()`. -/
def storeProp (acc : Props) (nv : List Char × List Char) : Props :=
  dictSet acc (pyLower (pyStrip (String.mk nv.1))) (pyStrip (String.mk nv.2))

/-- Properties collected from one block body. -/
def parseProps (block : List Char) : Props :=
  (propFindAll block).foldl storeProp []

/-- `parse_font_faces`: one properties dict per `@font-face` block. -/
def parse_font_faces (cssText : String) : List Props :=
  (fontFaceFindAll cssText.data).foldl (fun faces b => faces ++ [parseProps b]) []

/-! ## `pick_url`, weight/style/range parsing -/

/-- `pick_url`: first `url(...)` occurrence of the raw `src` value,
quote-stripped; `none` when the value is absent/empty or has no match. -/
def pick_url (srcValue : Option String) : Option String :=
  match srcValue with
  | none => none
  | some s =>
    if s = "" then none
    else
      match urlFindAll s.data with
      | [] => none
      | u :: _ => some (clean_value (String.mk u))

/-- `parse_weight`: `"normal"` for an absent/empty value, else the
quote-stripped, re-stripped, lower-cased value. -/
def parse_weight (value : Option String) : String :=
  match value with
  | none => "normal"
  | some v => if v = "" then "normal" else pyLower (pyStrip (clean_value v))

/-- `parse_style`: same normalization as `parse_weight`. -/
def parse_style (value : Option String) : String :=
  match value with
  | none => "normal"
  | some v => if v = "" then "normal" else pyLower (pyStrip (clean_value v))

/-- `parse_unicode_ranges`: empty for an absent/empty value, else the
quote-stripped, re-stripped value — the letter case is untouched. -/
def parse_unicode_ranges (value : Option String) : String :=
  match value with
  | none => ""
  | some v => if v = "" then "" else pyStrip (clean_value v)

/-! ## `to_valid_identifier` and `to_pascal_case` -/

/-- The identifier-safe character class `[0-9A-Za-z_]`. -/
def isIdentChar (c : Char) : Bool := c.isAlphanum || c = '_'

/-- The substitution `re.sub(r"[^0-9A-Za-z_]", "_", ·)`, per character. -/
def sanChar (c : Char) : Char := if isIdentChar c then c else '_'

/-- `to_valid_identifier`: replace every character outside
`[0-9A-Za-z_]` with `_`; prefix `_` when the result is empty or does not
start with a letter or underscore (the `head?.any` test is exactly
`safe and (safe[0].isalpha() or safe[0] == "_")`). -/
def to_valid_identifier (name : String) : String :=
  if (name.data.map sanChar).head?.any (fun c => c.isAlpha || c = '_') then
    String.mk (name.data.map sanChar)
  else "_" ++ String.mk (name.data.map sanChar)

/-- The alphanumeric class `[0-9A-Za-z]` used by `to_pascal_case`'s
splitting pattern (note: the underscore is a separator here). -/
def isAlnumChar (c : Char) : Bool := c.isAlphanum

/-- `re.split(r"[^0-9A-Za-z]+", name)`: the pieces between maximal runs
of non-alphanumeric characters, including the empty pieces produced at
the start and end. -/
def reSplitScan : Nat → List Char → List (List Char)
  | 0, _ => []
  | fuel + 1, cs =>
    match cs.dropWhile isAlnumChar with
    | [] => [cs.takeWhile isAlnumChar]
    | c :: rest =>
      cs.takeWhile isAlnumChar ::
        reSplitScan fuel ((c :: rest).dropWhile (fun x => !isAlnumChar x))

/-- `re.split(r"[^0-9A-Za-z]+", name)` proper. -/
def reSplitRuns (cs : List Char) : List (List Char) :=
  reSplitScan (cs.length + 1) cs

/-- `p[:1].upper() + p[1:]`. -/
def capFirst (p : List Char) : List Char :=
  match p with
  | [] => []
  | c :: rest => pyUpperChar c :: rest

/-- `parts = [p for p in re.split(...) if p]`. -/
def pascalParts (name : String) : List (List Char) :=
  (reSplitRuns name.data).filter (fun p => !p.isEmpty)

/-- `to_pascal_case`: split on runs of non-alphanumerics, discard empty
fragments, capitalize each fragment's first character, concatenate, and
sanitize; `"_"` when no fragments remain. -/
def to_pascal_case (name : String) : String :=
  if (pascalParts name).isEmpty then "_"
  else to_valid_identifier
    (String.mk (((pascalParts name).map capFirst).foldl (· ++ ·) []))

/-! ## SHA-1 (`hashlib.sha1(data).hexdigest()`)

Bytes are `Nat`s below 256; 32-bit words are `Nat`s reduced modulo
`2 ^ 32` after every arithmetic step. -/

/-- `2 ^ 32`. -/
def M32 : Nat := 4294967296

/-- Left-rotation of a 32-bit word. -/
def rotl32 (n x : Nat) : Nat :=
  ((x <<< n) % M32) ||| (x >>> (32 - n))

/-- SHA-1 padding: append `0x80`, zeros to 56 mod 64, and the bit length
as eight big-endian bytes. -/
def sha1pad (msg : List Nat) : List Nat :=
  msg ++ [128] ++ List.replicate ((119 - msg.length % 64) % 64) 0 ++
    (List.range 8).map (fun i => (msg.length * 8) >>> (8 * (7 - i)) % 256)

/-- The chunking loop, with structural fuel. -/
def chunkScan : Nat → List Nat → List (List Nat)
  | 0, _ => []
  | fuel + 1, l =>
    match l with
    | [] => []
    | c :: rest => (c :: rest).take 64 :: chunkScan fuel ((c :: rest).drop 64)

/-- Split into 64-byte chunks. -/
def chunks64 (l : List Nat) : List (List Nat) :=
  chunkScan (l.length + 1) l

/-- The sixteen initial 32-bit words of a chunk, big-endian. -/
def chunkWords (chunk : List Nat) : List Nat :=
  (List.range 16).map (fun i =>
    chunk.getD (4 * i) 0 * 16777216 + chunk.getD (4 * i + 1) 0 * 65536 +
    chunk.getD (4 * i + 2) 0 * 256 + chunk.getD (4 * i + 3) 0)

/-- Extend the message schedule by `n` further words. -/
def sha1extend (w : List Nat) : Nat → List Nat
  | 0 => w
  | n + 1 =>
    sha1extend
      (w ++ [rotl32 1 (w.getD (w.length - 3) 0 ^^^ w.getD (w.length - 8) 0 ^^^
             w.getD (w.length - 14) 0 ^^^ w.getD (w.length - 16) 0)]) n

/-- One of the eighty SHA-1 rounds. -/
def sha1round (w : List Nat) (st : Nat × Nat × Nat × Nat × Nat) (i : Nat) :
    Nat × Nat × Nat × Nat × Nat :=
  match st with
  | (a, b, c, d, e) =>
    let f :=
      if i < 20 then (b &&& c) ||| ((b ^^^ 4294967295) &&& d)
      else if i < 40 then b ^^^ c ^^^ d
      else if i < 60 then (b &&& c) ||| (b &&& d) ||| (c &&& d)
      else b ^^^ c ^^^ d
    let k :=
      if i < 20 then 1518500249
      else if i < 40 then 1859775393
      else if i < 60 then 2400959708
      else 3395469782
    ((rotl32 5 a + f + e + k + w.getD i 0) % M32, a, rotl32 30 b, c, d)

/-- Process one 64-byte chunk, updating the five hash words. -/
def sha1chunk (h : Nat × Nat × Nat × Nat × Nat) (chunk : List Nat) :
    Nat × Nat × Nat × Nat × Nat :=
  match h with
  | (h0, h1, h2, h3, h4) =>
    let w := sha1extend (chunkWords chunk) 64
    match (List.range 80).foldl (sha1round w) (h0, h1, h2, h3, h4) with
    | (a, b, c, d, e) =>
      ((h0 + a) % M32, (h1 + b) % M32, (h2 + c) % M32, (h3 + d) % M32, (h4 + e) % M32)

/-- One lower-case hexadecimal digit. -/
def hexDigit (n : Nat) : Char :=
  if n < 10 then Char.ofNat (48 + n) else Char.ofNat (87 + n)

/-- Eight lower-case hex digits of a 32-bit word, most significant first. -/
def hexWord (x : Nat) : List Char :=
  (List.range 8).map (fun i => hexDigit ((x >>> (4 * (7 - i))) % 16))

/-- `sha1_hex`: the 40-character lower-case hex digest of the bytes. -/
def sha1_hex (data : List Nat) : String :=
  match (chunks64 (sha1pad data)).foldl sha1chunk
      (1732584193, 4023233417, 2562383102, 271733878, 3285377520) with
  | (h0, h1, h2, h3, h4) =>
    String.mk (hexWord h0 ++ hexWord h1 ++ hexWord h2 ++ hexWord h3 ++ hexWord h4)

/-! ## `urllib.parse`: `urlsplit`, `urlparse`, `urlunparse`, `urljoin`

Modelled on CPython 3.11's `urllib/parse.py`, restricted to the pure
string manipulation (the IPv6-bracket and netloc validation errors are
not modelled; no claim depends on them). -/

/-- Split a list at the first occurrence of a character. -/
def splitFirst (cs : List Char) (c : Char) : Option (List Char × List Char) :=
  match cs with
  | [] => none
  | x :: rest =>
    if x = c then some ([], rest)
    else (splitFirst rest c).map (fun p => (x :: p.1, p.2))

theorem splitFirst_eq (cs : List Char) (c : Char) :
    ∀ a b, splitFirst cs c = some (a, b) → cs = a ++ c :: b ∧ c ∉ a := by
  induction cs with
  | nil => intro a b h; simp [splitFirst] at h
  | cons x rest ih =>
    intro a b h
    simp only [splitFirst] at h
    split at h
    · rename_i hx
      subst hx
      have h' := h
      simp at h'
      obtain ⟨h1, h2⟩ := h'
      subst h1
      subst h2
      simp
    · rename_i hx
      match hs : splitFirst rest c with
      | none => rw [hs] at h; simp at h
      | some (a', b') =>
        rw [hs] at h
        simp at h
        obtain ⟨h1, h2⟩ := h
        subst h1
        subst h2
        have hrec := ih a' b' hs
        refine ⟨by rw [hrec.1]; rfl, ?_⟩
        intro hmem
        rcases List.mem_cons.mp hmem with h' | h'
        · exact hx h'.symm
        · exact hrec.2 h'

theorem splitFirst_length (cs : List Char) (c : Char) (a b : List Char)
    (h : splitFirst cs c = some (a, b)) : b.length < cs.length := by
  have := congrArg List.length (splitFirst_eq cs c a b h).1
  simp at this
  omega

/-- The splitting loop of `str.split(sep)`, with structural fuel. -/
def strSplitScan (c : Char) : Nat → List Char → List (List Char)
  | 0, cs => [cs]
  | fuel + 1, cs =>
    match splitFirst cs c with
    | none => [cs]
    | some (a, b) => a :: strSplitScan c fuel b

/-- Python `str.split(sep)` for a one-character separator. -/
def strSplitChar (cs : List Char) (c : Char) : List (List Char) :=
  strSplitScan c (cs.length + 1) cs

/-- The tab, carriage-return and newline characters are removed from
URLs (`_UNSAFE_URL_BYTES_TO_REMOVE`). -/
def removeUnsafe (cs : List Char) : List Char :=
  cs.filter (fun c => !(c = '\t' || c = '\r' || c = '\n'))

/-- The WHATWG C0-control-or-space class stripped by `urlsplit`. -/
def isC0OrSpace (c : Char) : Bool := c.toNat ≤ 32

/-- Characters allowed in a URL scheme. -/
def isSchemeChar (c : Char) : Bool :=
  c.isAlphanum || c = '+' || c = '-' || c = '.'

/-- The result of `urlsplit`/`urlparse`. -/
structure ParseResult where
  scheme : String
  netloc : String
  path : String
  params : String
  query : String
  fragment : String
deriving Repr, DecidableEq

/-- A character that ends the netloc section. -/
def isNetlocEnd (c : Char) : Bool := c = '/' || c = '?' || c = '#'

/-- The scheme detection of `urlsplit`: `i = url.find(':')`, valid when
the text before the colon is a nonempty run of scheme characters led by
an ASCII letter. -/
def schemeSplit (ds : String) (cs : List Char) : String × List Char :=
  match splitFirst cs ':' with
  | some (c0 :: pre, post) =>
    if (c0 :: pre).all isSchemeChar && c0.isAlpha then
      (String.mk ((c0 :: pre).map pyLowerChar), post)
    else (ds, cs)
  | _ => (ds, cs)

/-- The netloc split: when the remainder starts with `//`, the netloc
runs to the first of `/`, `?`, `#`. -/
def netlocSplit (cs : List Char) : String × List Char :=
  if cs.take 2 = ['/', '/'] then
    (String.mk ((cs.drop 2).takeWhile (fun c => !isNetlocEnd c)),
     (cs.drop 2).dropWhile (fun c => !isNetlocEnd c))
  else ("", cs)

/-- `url.split('#', 1)` when a `#` is present. -/
def fragSplit (cs : List Char) : List Char × String :=
  match splitFirst cs '#' with
  | some (a, b) => (a, String.mk b)
  | none => (cs, "")

/-- `url.split('?', 1)` when a `?` is present. -/
def querySplit (cs : List Char) : List Char × String :=
  match splitFirst cs '?' with
  | some (a, b) => (a, String.mk b)
  | none => (cs, "")

/-- `urlsplit` on the cleaned character list. -/
def urlsplitCore (ds : String) (cs : List Char) : ParseResult :=
  ⟨(schemeSplit ds cs).1,
   (netlocSplit (schemeSplit ds cs).2).1,
   String.mk (querySplit (fragSplit (netlocSplit (schemeSplit ds cs).2).2).1).1,
   "",
   (querySplit (fragSplit (netlocSplit (schemeSplit ds cs).2).2).1).2,
   (fragSplit (netlocSplit (schemeSplit ds cs).2).2).2⟩

/-- `urlsplit(url, scheme)` (with `allow_fragments=True`), as the
four-way decomposition before parameter splitting: strip leading
C0-control/space characters, remove tab/CR/LF, then split off scheme,
netloc, fragment and query. -/
def pyUrlsplit (url0 dscheme0 : String) : ParseResult :=
  urlsplitCore
    (String.mk (removeUnsafe
      (((dscheme0.data.dropWhile isC0OrSpace).reverse.dropWhile isC0OrSpace).reverse)))
    (removeUnsafe (url0.data.dropWhile isC0OrSpace))

/-- Schemes whose URLs may carry `;parameters` on the last segment. -/
def usesParamsList : List String :=
  ["", "ftp", "hdl", "prospero", "http", "imap", "https", "shttp", "rtsp",
   "rtsps", "rtspu", "sip", "sips", "mms", "sftp", "tel"]

/-- Schemes supporting relative-reference resolution in `urljoin`. -/
def usesRelativeList : List String :=
  ["", "ftp", "http", "gopher", "nntp", "imap", "wais", "file", "https",
   "shttp", "mms", "prospero", "rtsp", "rtsps", "rtspu", "sftp", "svn",
   "svn+ssh", "ws", "wss"]

/-- Schemes whose URLs use a network location. -/
def usesNetlocList : List String :=
  ["", "ftp", "http", "gopher", "nntp", "telnet", "imap", "wais", "file",
   "mms", "https", "shttp", "snews", "prospero", "rtsp", "rtsps", "rtspu",
   "rsync", "svn", "svn+ssh", "sftp", "nfs", "git", "git+ssh", "ws", "wss"]

/-- `_splitparams`: split `;parameters` off the last path segment. -/
def splitParams (path : List Char) : List Char × List Char :=
  if path.contains '/' then
    let after := (path.reverse.takeWhile (fun c => !(c = '/'))).reverse
    match splitFirst after ';' with
    | some (a, b) => (path.take (path.length - after.length) ++ a, b)
    | none => (path, [])
  else
    match splitFirst path ';' with
    | some (a, b) => (a, b)
    | none => (path, [])

/-- `urlparse(url, scheme)`: `urlsplit` plus parameter splitting. -/
def pyUrlparse (url dscheme : String) : ParseResult :=
  let sp := pyUrlsplit url dscheme
  if usesParamsList.contains sp.scheme && sp.path.data.contains ';' then
    let pp := splitParams sp.path.data
    { sp with path := String.mk pp.1, params := String.mk pp.2 }
  else
    sp

/-- `urlunsplit` on five components. -/
def pyUrlunsplit (scheme netloc path query fragment : String) : String :=
  let url1 :=
    if netloc ≠ "" ∨
       (scheme ≠ "" ∧ usesNetlocList.contains scheme ∧ path.data.take 2 ≠ ['/', '/']) then
      "//" ++ netloc ++
        (if path ≠ "" ∧ path.data.head? ≠ some '/' then "/" ++ path else path)
    else path
  let url2 := if scheme ≠ "" then scheme ++ ":" ++ url1 else url1
  let url3 := if query ≠ "" then url2 ++ "?" ++ query else url2
  if fragment ≠ "" then url3 ++ "#" ++ fragment else url3

/-- `urlunparse` on six components. -/
def pyUrlunparse (r : ParseResult) : String :=
  pyUrlunsplit r.scheme r.netloc
    (if r.params ≠ "" then r.path ++ ";" ++ r.params else r.path)
    r.query r.fragment

/-- `segments[1:-1] = filter(None, segments[1:-1])`: drop the empty
segments strictly between the first and the last. -/
def filterMiddle (segs : List (List Char)) : List (List Char) :=
  match segs with
  | [] => []
  | [a] => [a]
  | a :: b :: rest =>
    a :: (((b :: rest).dropLast.filter (fun s => !s.isEmpty)) ++ [(b :: rest).getLastD []])

/-- The `..`/`.` resolution loop of `urljoin`. -/
def resolveSegments (segments : List (List Char)) : List (List Char) :=
  segments.foldl
    (fun acc seg =>
      if seg = ['.', '.'] then acc.dropLast
      else if seg = ['.'] then acc
      else acc ++ [seg]) []

/-- `urljoin(base, url)`, following CPython 3.11. -/
def pyUrljoin (base url : String) : String :=
  if base = "" then url
  else if url = "" then base
  else
    let b := pyUrlparse base ""
    let u := pyUrlparse url b.scheme
    if u.scheme ≠ b.scheme ∨ ¬usesRelativeList.contains u.scheme then url
    else if usesNetlocList.contains u.scheme ∧ u.netloc ≠ "" then pyUrlunparse u
    else
      let netloc := if usesNetlocList.contains u.scheme then b.netloc else u.netloc
      if u.path = "" ∧ u.params = "" then
        pyUrlunparse ⟨u.scheme, netloc, b.path, b.params,
          (if u.query = "" then b.query else u.query), u.fragment⟩
      else
        let baseParts0 := strSplitChar b.path.data '/'
        let baseParts :=
          if baseParts0.getLastD [] ≠ [] then baseParts0.dropLast else baseParts0
        let segments :=
          if u.path.data.head? = some '/' then strSplitChar u.path.data '/'
          else filterMiddle (baseParts ++ strSplitChar u.path.data '/')
        let resolved0 := resolveSegments segments
        let resolved :=
          if segments.getLastD [] = ['.'] ∨ segments.getLastD [] = ['.', '.'] then
            resolved0 ++ [[]]
          else resolved0
        let joined := (resolved.intersperse ['/']).foldl (· ++ ·) []
        pyUrlunparse ⟨u.scheme, netloc,
          String.mk (if joined = [] then ['/'] else joined), u.params, u.query, u.fragment⟩

/-! ## `pathlib.PurePosixPath`: `name` and `suffix` -/

/-- `Path(p).name`: the final path component. -/
def pathName (p : String) : String :=
  String.mk (((strSplitChar p.data '/').filter
    (fun s => !(s.isEmpty || s = ['.']))).getLastD [])

/-- `Path(p).suffix`: the final component's extension, dot included;
empty when the dot is the first or last character of the name. -/
def pathSuffix (p : String) : String :=
  let name := (pathName p).data
  let k := (name.reverse.takeWhile (fun c => !(c = '.'))).length
  if name.contains '.' ∧ 1 ≤ k ∧ k + 1 < name.length then
    String.mk (name.drop (name.length - 1 - k))
  else ""

/-- The file extension used for a resolved font URL:
`Path(urlparse(url).path).suffix or ".woff2"`. -/
def extOf (fontUrl : String) : String :=
  if pathSuffix (pyUrlparse fontUrl "").path = "" then ".woff2"
  else pathSuffix (pyUrlparse fontUrl "").path

/-! ## The main loop: descriptors, file writes, bindings -/

/-- One resolved font face, ready for emission. -/
structure Descriptor where
  resource_name : String
  family : String
  weight : String
  style : String
  ranges : String
deriving Repr, DecidableEq, Inhabited

/-- The resource name derived from a hash string in `main`:
`to_valid_identifier`, then a further `_` prefix unless one is present. -/
def resourceNameOf (h : String) : String :=
  if (to_valid_identifier h).data.head? = some '_' then to_valid_identifier h
  else "_" ++ to_valid_identifier h

/-- The output directory as an association list from filename to the
bytes stored under it. -/
abbrev FS := List (String × List Nat)

/-- `if not target.exists(): target.write_bytes(data)`. -/
def writeIfAbsent (fs : FS) (fn : String) (data : List Nat) : FS :=
  if fs.any (fun e => e.1 = fn) then fs else fs ++ [(fn, data)]

/-- The pure part of one iteration of the `for face in faces` loop:
resolve the `src` URL against the stylesheet URL, fetch the bytes
(`fetch` maps an absolute URL to the bytes it serves), hash, derive the
resource name, extension and filename, and build the descriptor.
`none` when `pick_url` yields nothing or the empty string (the `continue`
branch). -/
def buildDescriptor (cssUrl : String) (fetch : String → List Nat) (face : Props) :
    Option (Descriptor × String × List Nat) :=
  match pick_url (dictGet? face "src") with
  | none => none
  | some u =>
    if u = "" then none
    else
      some
        ({ resource_name := resourceNameOf (sha1_hex (fetch (pyUrljoin cssUrl u))),
           family := clean_value (dictGetD face "font-family" "Unknown"),
           weight := parse_weight (dictGet? face "font-weight"),
           style := parse_style (dictGet? face "font-style"),
           ranges := parse_unicode_ranges (dictGet? face "unicode-range") },
         resourceNameOf (sha1_hex (fetch (pyUrljoin cssUrl u))) ++
           extOf (pyUrljoin cssUrl u),
         fetch (pyUrljoin cssUrl u))

/-- One full iteration of the loop: write the file if absent, append the
descriptor. -/
def runStep (cssUrl : String) (fetch : String → List Nat)
    (st : FS × List Descriptor) (face : Props) : FS × List Descriptor :=
  match buildDescriptor cssUrl fetch face with
  | none => st
  | some (d, fn, data) => (writeIfAbsent st.1 fn data, st.2 ++ [d])

/-- The whole loop over the parsed faces, starting from the output
directory's current contents. -/
def runMain (cssUrl : String) (fetch : String → List Nat)
    (faces : List Props) (fs0 : FS) : FS × List Descriptor :=
  faces.foldl (runStep cssUrl fetch) (fs0, [])

/-! ## The Kotlin bindings emitter -/

/-- `families.setdefault(d["family"], []).append(d)`. -/
def famAdd : List (String × List Descriptor) → Descriptor → List (String × List Descriptor)
  | [], d => [(d.family, [d])]
  | (f, items) :: rest, d =>
    if f = d.family then (f, items ++ [d]) :: rest
    else (f, items) :: famAdd rest d

/-- Group descriptors by family, first-seen family order, descriptor
order preserved inside each family. -/
def groupFamilies (ds : List Descriptor) : List (String × List Descriptor) :=
  ds.foldl famAdd []

/-- The member-construction line emitted for one descriptor. -/
def memberLine (d : Descriptor) : String :=
  "    ResourceFontDescriptor(resource = Res.font." ++ d.resource_name ++
    ", fontFamily = \"" ++ d.family ++ "\", weight = \"" ++ d.weight ++
    "\", style = \"" ++ d.style ++ "\", unicodeRanges = \"" ++ d.ranges ++ "\"),"

/-- The lines emitted for one family: the provider opening line, one
member line per descriptor, and the closing parenthesis. -/
def familySection (fam : String × List Descriptor) : List String :=
  ("val " ++ to_pascal_case fam.1 ++ " = StaticFontDescriptorProvider(") ::
    fam.2.map memberLine ++ [")"]

/-- All lines of the generated Kotlin file, in order. -/
def kotlinLines (kotlinPackage resPackage : String) (ds : List Descriptor) :
    List String :=
  (if kotlinPackage = "" then [] else ["package " ++ kotlinPackage, ""]) ++
  ["import " ++ resPackage ++ ".Res",
   "import " ++ resPackage ++ ".*",
   "import xyz.hyli.klyph.ResourceFontDescriptor",
   "import xyz.hyli.klyph.StaticFontDescriptorProvider",
   ""] ++
  (groupFamilies ds).foldl (fun acc fam => acc ++ familySection fam) [] ++
  [""]

/-- The text written to the bindings file: the lines joined by newlines. -/
def kotlinFileText (kotlinPackage resPackage : String) (ds : List Descriptor) :
    String :=
  String.intercalate "\n" (kotlinLines kotlinPackage resPackage ds)

/-! ## Generic helper lemmas -/

theorem data_mk (l : List Char) : (String.mk l).data = l := rfl

theorem mk_data (s : String) : String.mk s.data = s := rfl

theorem data_append (s t : String) : (s ++ t).data = s.data ++ t.data := by
  cases s; cases t; rfl

theorem getLast?_cons_of_ne {α : Type} (c : α) (t : List α) (ht : t ≠ []) :
    (c :: t).getLast? = t.getLast? := by
  cases t with
  | nil => exact absurd rfl ht
  | cons b t' => rfl

theorem dropWhile_dropWhile (p : Char → Bool) (l : List Char) :
    (l.dropWhile p).dropWhile p = l.dropWhile p := by
  match h : l.dropWhile p with
  | [] => simp
  | c :: t =>
    have hc := List.head?_dropWhile_not p l
    rw [h] at hc
    simp only [List.head?_cons] at hc
    exact List.dropWhile_cons_of_neg (by simp [hc])

theorem getLast?_dropWhile (p : Char → Bool) (l : List Char)
    (h : l.dropWhile p ≠ []) : (l.dropWhile p).getLast? = l.getLast? := by
  induction l with
  | nil => simp at h
  | cons c t ih =>
    by_cases hc : p c
    · rw [List.dropWhile_cons_of_pos hc] at h ⊢
      rw [ih h]
      have ht : t ≠ [] := by
        intro he; rw [he] at h; simp at h
      exact (getLast?_cons_of_ne c t ht).symm
    · rw [List.dropWhile_cons_of_neg hc]

/-- When a list already has a clean front, stripping whitespace off its
reversed form leaves a list whose reverse also has a clean front. -/
theorem dropWhile_reverse_dropWhile (p : Char → Bool) (y : List Char)
    (hy : y.dropWhile p = y) :
    ((y.reverse.dropWhile p).reverse).dropWhile p = (y.reverse.dropWhile p).reverse := by
  match hX : y.reverse.dropWhile p with
  | [] => simp
  | c :: t =>
    have hlast : (c :: t).getLast? = y.head? := by
      rw [← hX, getLast?_dropWhile p y.reverse (by rw [hX]; simp)]
      exact List.getLast?_reverse y
    match hyy : y with
    | [] =>
      simp at hX
    | c0 :: t0 =>
      have hc0 : p c0 = false := by
        by_contra hc
        have hc' : p c0 = true := by revert hc; cases p c0 <;> simp
        rw [List.dropWhile_cons_of_pos hc'] at hy
        have := congrArg List.length hy
        have hle := lenDropWhile p t0
        simp at this
        omega
      have hh : ((c :: t).reverse).head? = some c0 := by
        rw [List.head?_reverse, hlast]
        rfl
      match hr : (c :: t).reverse with
      | [] =>
        have := congrArg List.length hr
        simp at this
      | c1 :: t1 =>
        rw [hr] at hh
        simp only [List.head?_cons] at hh
        have hc1 : c1 = c0 := Option.some.inj hh
        subst hc1
        exact List.dropWhile_cons_of_neg (by simp [hc0])

/-- The output of `pyStripList` has no whitespace left at either end. -/
theorem pyStripList_stable (l : List Char) :
    (pyStripList l).dropWhile pyIsSpaceChar = pyStripList l ∧
    (pyStripList l).reverse.dropWhile pyIsSpaceChar = (pyStripList l).reverse := by
  constructor
  · exact dropWhile_reverse_dropWhile pyIsSpaceChar (l.dropWhile pyIsSpaceChar)
      (dropWhile_dropWhile _ _)
  · show ((((l.dropWhile pyIsSpaceChar).reverse.dropWhile pyIsSpaceChar).reverse).reverse).dropWhile pyIsSpaceChar
        = (((l.dropWhile pyIsSpaceChar).reverse.dropWhile pyIsSpaceChar).reverse).reverse
    rw [List.reverse_reverse]
    exact dropWhile_dropWhile _ _

theorem pyStripList_idem (l : List Char) :
    pyStripList (pyStripList l) = pyStripList l := by
  obtain ⟨h1, h2⟩ := pyStripList_stable l
  show (((pyStripList l).dropWhile pyIsSpaceChar).reverse.dropWhile pyIsSpaceChar).reverse
      = pyStripList l
  rw [h1, h2, List.reverse_reverse]

/-! ## C4: `clean_value` -/

/-- Following the spec's words: remove one matching pair of enclosing
straight quotes when both end characters are the same quote character. -/
def specStripQuotePair (t : String) : String :=
  match t.data.head?, t.data.getLast? with
  | some a, some b =>
    if a = b ∧ (a = '"' ∨ a = '\'') then String.mk ((t.data.drop 1).dropLast)
    else t
  | _, _ => t

/-- **C4.** `clean_value` first strips surrounding whitespace, then
removes exactly one matching pair of enclosing straight quotes when both
ends are the same quote character; it is idempotent on already-unquoted
strings and leaves mismatched quote types untouched; `"Arial"` → `Arial`,
`'Arial'` → `Arial`, `Arial` → `Arial`, `"Ar'ial"` → `Ar'ial`. -/
theorem clean_value_spec :
    (∀ s : String, clean_value s = specStripQuotePair (pyStrip s)) ∧
    (∀ s : String, ¬quotedEnds (pyStripList s.data) →
      clean_value s = pyStrip s ∧ clean_value (clean_value s) = clean_value s) ∧
    clean_value (String.mk ['"', 'A', 'r', 'i', 'a', 'l', '"']) = "Arial" ∧
    clean_value (String.mk ['\'', 'A', 'r', 'i', 'a', 'l', '\'']) = "Arial" ∧
    clean_value "Arial" = "Arial" ∧
    clean_value (String.mk ['"', 'A', 'r', '\'', 'i', 'a', 'l', '"']) =
      String.mk ['A', 'r', '\'', 'i', 'a', 'l'] := by
  refine ⟨?_, ?_, by decide, by decide, by decide, by decide⟩
  · intro s
    unfold clean_value specStripQuotePair pyStrip
    simp only [data_mk]
    rcases hh : (pyStripList s.data).head? with _ | a
    · have hnil : pyStripList s.data = [] := List.head?_eq_none_iff.mp hh
      rw [hnil]
      simp [quotedEnds]
    · rcases hl : (pyStripList s.data).getLast? with _ | b
      · have hnil : pyStripList s.data = [] := List.getLast?_eq_none_iff.mp hl
        rw [hnil] at hh
        simp at hh
      · have hiff : quotedEnds (pyStripList s.data) ↔ (a = b ∧ (a = '"' ∨ a = '\'')) := by
          unfold quotedEnds
          rw [hh, hl]
          constructor
          · rintro (⟨h1, h2⟩ | ⟨h1, h2⟩) <;> simp_all
          · rintro ⟨rfl, (rfl | rfl)⟩ <;> simp_all
        simp only [hh, hl]
        by_cases hq : a = b ∧ (a = '"' ∨ a = '\'')
        · rw [if_pos (hiff.mpr hq), if_pos hq]
        · rw [if_neg (fun h => hq (hiff.mp h)), if_neg hq]
  · intro s hq
    have hcv : clean_value s = pyStrip s := by
      unfold clean_value pyStrip
      rw [if_neg hq]
    refine ⟨hcv, ?_⟩
    rw [hcv]
    unfold clean_value pyStrip
    simp only [data_mk, pyStripList_idem]
    rw [if_neg hq]

/-- Witness for C4 at a concrete unquoted input. -/
theorem clean_value_spec_witness :
    ¬quotedEnds (pyStripList " bold ".data) ∧
    clean_value " bold " = pyStrip " bold " ∧
    clean_value (clean_value " bold ") = clean_value " bold " :=
  ⟨by decide, (clean_value_spec.2.1 " bold " (by decide)).1,
   (clean_value_spec.2.1 " bold " (by decide)).2⟩

/-! ## C5: `to_valid_identifier` and `resourceNameOf` -/

theorem sanChar_ident (c : Char) : isIdentChar (sanChar c) = true := by
  unfold sanChar
  split
  · assumption
  · decide

theorem mem_map_sanChar {l : List Char} {c : Char} (h : c ∈ l.map sanChar) :
    isIdentChar c = true := by
  obtain ⟨a, _, rfl⟩ := List.mem_map.mp h
  exact sanChar_ident a

theorem map_sanChar_of_ident (l : List Char) (h : ∀ c ∈ l, isIdentChar c = true) :
    l.map sanChar = l := by
  induction l with
  | nil => rfl
  | cons c t ih =>
    simp only [List.map_cons]
    rw [ih (fun x hx => h x (List.mem_cons_of_mem c hx))]
    unfold sanChar
    rw [if_pos (h c (List.mem_cons_self c t))]

theorem tvi_chars (s : String) :
    ∀ c ∈ (to_valid_identifier s).data, isIdentChar c = true := by
  unfold to_valid_identifier
  split
  · intro c hc
    rw [data_mk] at hc
    exact mem_map_sanChar hc
  · intro c hc
    rw [data_append, data_mk] at hc
    rcases List.mem_append.mp hc with h | h
    · have : c = '_' := by simpa using h
      subst this
      decide
    · exact mem_map_sanChar h

theorem tvi_head_good (s : String) :
    ((to_valid_identifier s).data.head?.any (fun c => c.isAlpha || c = '_')) = true := by
  unfold to_valid_identifier
  split
  · rename_i h
    rw [data_mk]
    exact h
  · rw [data_append]
    rfl

theorem tvi_fixed (s : String)
    (hchars : ∀ c ∈ s.data, isIdentChar c = true)
    (hhead : (s.data.head?.any (fun c => c.isAlpha || c = '_')) = true) :
    to_valid_identifier s = s := by
  unfold to_valid_identifier
  rw [map_sanChar_of_ident s.data hchars, if_pos hhead]

theorem tvi_idem (s : String) :
    to_valid_identifier (to_valid_identifier s) = to_valid_identifier s :=
  tvi_fixed _ (tvi_chars s) (tvi_head_good s)

theorem resourceNameOf_head (h : String) :
    (resourceNameOf h).data.head? = some '_' := by
  unfold resourceNameOf
  split
  · assumption
  · rw [data_append]
    rfl

theorem resourceNameOf_chars (h : String) :
    ∀ c ∈ (resourceNameOf h).data, isIdentChar c = true := by
  unfold resourceNameOf
  split
  · exact tvi_chars h
  · intro c hc
    rw [data_append] at hc
    rcases List.mem_append.mp hc with h' | h'
    · have : c = '_' := by simpa using h'
      subst this
      decide
    · exact tvi_chars h c h'

/-- **C5.** Every derived `resourceName` begins with `_` and contains
only characters in `[0-9A-Za-z_]`; the sanitation replaces characters
outside the class with `_` and prefixes `_` as described; the transform
is safe (a fixed point) on already-sanitized input, both for
`to_valid_identifier` alone and for the full resource-name derivation. -/
theorem resource_name_spec :
    (∀ h : String, (resourceNameOf h).data.head? = some '_') ∧
    (∀ h : String, ∀ c ∈ (resourceNameOf h).data, isIdentChar c = true) ∧
    (∀ h : String, to_valid_identifier (to_valid_identifier h) = to_valid_identifier h) ∧
    (∀ h : String, resourceNameOf (resourceNameOf h) = resourceNameOf h) := by
  refine ⟨resourceNameOf_head, resourceNameOf_chars, tvi_idem, ?_⟩
  intro h
  have hfix : to_valid_identifier (resourceNameOf h) = resourceNameOf h := by
    refine tvi_fixed _ (resourceNameOf_chars h) ?_
    rw [resourceNameOf_head h]
    rfl
  show (if (to_valid_identifier (resourceNameOf h)).data.head? = some '_'
        then to_valid_identifier (resourceNameOf h)
        else "_" ++ to_valid_identifier (resourceNameOf h)) = resourceNameOf h
  rw [hfix, resourceNameOf_head h]
  simp

/-- Witness for C5 at a concrete hash-like input and character. -/
theorem resource_name_spec_witness :
    ('9' ∈ (resourceNameOf "9a!").data) ∧ isIdentChar '9' = true :=
  ⟨by decide, resource_name_spec.2.1 "9a!" '9' (by decide)⟩

/-! ## C6: `to_pascal_case` -/

/-- Following the spec's words: the maximal nonempty runs of
alphanumeric characters (splitting on any run of non-alphanumerics and
discarding empty fragments). -/
def alnumRuns (l : List Char) : List (List Char) :=
  match l with
  | [] => []
  | c :: cs =>
    if isAlnumChar c then
      (c :: cs.takeWhile isAlnumChar) :: alnumRuns (cs.dropWhile isAlnumChar)
    else alnumRuns cs
termination_by l.length
decreasing_by
  · exact Nat.lt_of_le_of_lt (lenDropWhile _ _) (by simp)
  · simp

theorem alnumRuns_dropNonAlnum (l : List Char) :
    alnumRuns (l.dropWhile (fun x => !isAlnumChar x)) = alnumRuns l := by
  induction l with
  | nil => rfl
  | cons c t ih =>
    by_cases hc : isAlnumChar c
    · rw [List.dropWhile_cons_of_neg (by simp [hc])]
    · rw [List.dropWhile_cons_of_pos (by simp [hc]), ih]
      rw [alnumRuns]
      rw [if_neg hc]

theorem reSplitScan_filter (fuel : Nat) :
    ∀ cs : List Char, cs.length < fuel →
      (reSplitScan fuel cs).filter (fun p => !p.isEmpty) = alnumRuns cs := by
  induction fuel with
  | zero => intro cs h; omega
  | succ fuel ih =>
    intro cs hlen
    simp only [reSplitScan]
    split
    · rename_i hd
      have htake : cs.takeWhile isAlnumChar = cs := by
        have h := List.takeWhile_append_dropWhile isAlnumChar cs
        rw [hd] at h
        simpa using h
      rw [htake]
      match hcs : cs with
      | [] => simp [alnumRuns]
      | c :: t =>
        have hall : ∀ x ∈ c :: t, isAlnumChar x = true := by
          intro x hx
          have h2 := List.takeWhile_append_dropWhile isAlnumChar (c :: t)
          rw [hd] at h2
          simp only [List.append_nil] at h2
          rw [← h2] at hx
          exact List.mem_takeWhile_imp hx
        have hc : isAlnumChar c = true := hall c (by simp)
        rw [alnumRuns, if_pos hc]
        have ht1 : t.takeWhile isAlnumChar = t := by
          have h2 := List.takeWhile_append_dropWhile isAlnumChar (c :: t)
          rw [hd] at h2
          simp only [List.append_nil, List.takeWhile_cons_of_pos hc] at h2
          exact List.cons.inj h2 |>.2
        have ht2 : t.dropWhile isAlnumChar = [] := by
          rw [List.dropWhile_cons_of_pos hc] at hd
          exact hd
        rw [ht1, ht2]
        simp [alnumRuns]
    · rename_i c rest hd
      have hc : isAlnumChar c = false := by
        have := List.head?_dropWhile_not isAlnumChar cs
        rw [hd] at this
        simpa using this
      have hnextlen : ((c :: rest).dropWhile (fun x => !isAlnumChar x)).length < fuel := by
        have h1 : ((c :: rest).dropWhile (fun x => !isAlnumChar x)).length ≤ rest.length := by
          rw [List.dropWhile_cons_of_pos (by simp [hc])]
          exact lenDropWhile _ _
        have h2 : rest.length + 1 ≤ cs.length := by
          have := congrArg List.length hd
          simp at this
          have hle := lenDropWhile isAlnumChar cs
          omega
        omega
      have hih := ih _ hnextlen
      rw [List.filter_cons]
      by_cases hemp : cs.takeWhile isAlnumChar = []
      · have hcs : cs.dropWhile isAlnumChar = cs := by
          have h2 := List.takeWhile_append_dropWhile isAlnumChar cs
          rw [hemp] at h2
          simpa using h2
        rw [hemp]
        rw [if_neg (by simp)]
        rw [hih, alnumRuns_dropNonAlnum]
        have hcc : cs = c :: rest := hcs.symm.trans hd
        rw [hcc]
      · match hcs : cs with
        | [] => simp [hcs] at hemp
        | c0 :: t =>
          have hc0 : isAlnumChar c0 = true := by
            by_contra hcc
            have : isAlnumChar c0 = false := by revert hcc; cases isAlnumChar c0 <;> simp
            rw [List.takeWhile_cons_of_neg (by simp [this])] at hemp
            exact hemp rfl
          have hdrop : t.dropWhile isAlnumChar = c :: rest := by
            rw [List.dropWhile_cons_of_pos hc0] at hd
            exact hd
          rw [alnumRuns, if_pos hc0]
          rw [List.takeWhile_cons_of_pos hc0]
          rw [hih, alnumRuns_dropNonAlnum, hdrop]
          simp

/-- The filtered `re.split` pieces are exactly the maximal alphanumeric
runs. -/
theorem pascalParts_eq_alnumRuns (s : String) :
    pascalParts s = alnumRuns s.data := by
  unfold pascalParts reSplitRuns
  exact reSplitScan_filter (s.data.length + 1) s.data (by omega)

/-- **C6.** `to_pascal_case` splits on runs of non-alphanumerics,
discards empty fragments, upper-cases each fragment's first letter and
concatenates; `"Open Sans"` → `OpenSans`, `"my-font_2"` → `MyFont2`;
the empty string or an all-symbol string yields `"_"`; the result passes
through (and is a fixed point of) the same identifier sanitation as
`resourceName`. -/
theorem to_pascal_case_spec :
    to_pascal_case "Open Sans" = "OpenSans" ∧
    to_pascal_case "my-font_2" = "MyFont2" ∧
    to_pascal_case "" = "_" ∧
    (∀ s : String, (∀ c ∈ s.data, isAlnumChar c = false) → to_pascal_case s = "_") ∧
    (∀ s : String,
      to_pascal_case s =
        if alnumRuns s.data = [] then "_"
        else to_valid_identifier
          (String.mk (((alnumRuns s.data).map capFirst).foldl (· ++ ·) []))) ∧
    (∀ s : String, to_valid_identifier (to_pascal_case s) = to_pascal_case s) := by
  have hmain : ∀ s : String,
      to_pascal_case s =
        if alnumRuns s.data = [] then "_"
        else to_valid_identifier
          (String.mk (((alnumRuns s.data).map capFirst).foldl (· ++ ·) [])) := by
    intro s
    unfold to_pascal_case
    rw [pascalParts_eq_alnumRuns]
    by_cases he : alnumRuns s.data = []
    · rw [if_pos he, if_pos (by rw [he]; rfl)]
    · rw [if_neg he, if_neg (by simpa [List.isEmpty_iff] using he)]
  have hallsym : ∀ s : String, (∀ c ∈ s.data, isAlnumChar c = false) →
      to_pascal_case s = "_" := by
    intro s hs
    rw [hmain s]
    have hruns : alnumRuns s.data = [] := by
      have : ∀ l : List Char, (∀ c ∈ l, isAlnumChar c = false) → alnumRuns l = [] := by
        intro l
        induction l with
        | nil => intro _; simp [alnumRuns]
        | cons c t ih =>
          intro hl
          rw [alnumRuns, if_neg (by simp [hl c (by simp)])]
          exact ih (fun x hx => hl x (List.mem_cons_of_mem c hx))
      exact this s.data hs
    rw [if_pos hruns]
  refine ⟨by decide, by decide, by decide, hallsym, hmain, ?_⟩
  intro s
  unfold to_pascal_case
  by_cases he : (pascalParts s).isEmpty
  · rw [if_pos he]
    decide
  · rw [if_neg he]
    exact tvi_idem _

/-- Witness for C6 at a concrete all-symbol input. -/
theorem to_pascal_case_spec_witness :
    (∀ c ∈ "!![]".data, isAlnumChar c = false) ∧ to_pascal_case "!![]" = "_" :=
  ⟨by decide, to_pascal_case_spec.2.2.2.1 "!![]" (by decide)⟩

/-! ## C2: the parser -/

theorem foldl_append_eq_map {α β : Type} (f : α → β) (l : List α) (init : List β) :
    l.foldl (fun acc b => acc ++ [f b]) init = init ++ l.map f := by
  induction l generalizing init with
  | nil => simp
  | cons c t ih => simp [ih]

theorem dictGet_dictSet (d : Props) (k v k' : String) :
    dictGet? (dictSet d k v) k' = if k' = k then some v else dictGet? d k' := by
  induction d with
  | nil =>
    show (if k = k' then some v else dictGet? [] k') = if k' = k then some v else none
    by_cases h : k = k'
    · rw [if_pos h, if_pos h.symm]
    · rw [if_neg h, if_neg (fun he => h he.symm)]
      rfl
  | cons hd tl ih =>
    obtain ⟨k0, v0⟩ := hd
    by_cases h0 : k0 = k
    · subst h0
      unfold dictSet
      rw [if_pos rfl]
      show (if k0 = k' then some v else dictGet? tl k') =
        if k' = k0 then some v else (if k0 = k' then some v0 else dictGet? tl k')
      by_cases h : k0 = k'
      · rw [if_pos h, if_pos h.symm]
      · rw [if_neg h, if_neg (fun he => h he.symm), if_neg h]
    · unfold dictSet
      rw [if_neg h0]
      show (if k0 = k' then some v0 else dictGet? (dictSet tl k v) k') =
        if k' = k then some v else (if k0 = k' then some v0 else dictGet? tl k')
      by_cases h : k0 = k'
      · rw [if_pos h, if_pos h]
        rw [if_neg (fun he : k' = k => h0 (h.trans he))]
      · rw [if_neg h, if_neg h, ih]

/-- `getLast?` of the hit list, falling back to a default: the value a
sequence of dict assignments leaves for a key. -/
def lastWins (hits : List String) (dflt : Option String) : Option String :=
  match hits.getLast? with
  | some v => some v
  | none => dflt

theorem lastWins_cons (a : String) (hits : List String) (dflt : Option String) :
    lastWins (a :: hits) dflt = lastWins hits (some a) := by
  unfold lastWins
  cases hits with
  | nil => rfl
  | cons b t =>
    rw [getLast?_cons_of_ne a (b :: t) (by simp)]
    cases h : (b :: t).getLast? with
    | some v => rfl
    | none =>
      have := List.getLast?_eq_none_iff.mp h
      simp at this

theorem dictGet_foldl_pairs (pairs : List (String × String)) (d : Props) (k : String) :
    dictGet? (pairs.foldl (fun acc p => dictSet acc p.1 p.2) d) k =
      lastWins (pairs.filterMap (fun p => if p.1 = k then some p.2 else none))
        (dictGet? d k) := by
  induction pairs generalizing d with
  | nil => rfl
  | cons p ps ih =>
    simp only [List.foldl_cons, List.filterMap_cons]
    rw [ih]
    by_cases hp : p.1 = k
    · rw [if_pos hp, dictGet_dictSet d p.1 p.2 k, if_pos hp.symm, lastWins_cons]
    · rw [if_neg hp, dictGet_dictSet d p.1 p.2 k,
          if_neg (fun he : k = p.1 => hp he.symm)]

/-- Lookup in a parsed block: the last matching `property: value;` pair
wins, keys being the lower-cased stripped names, values the stripped
values. -/
theorem parseProps_lookup (b : List Char) (k : String) :
    dictGet? (parseProps b) k =
      lastWins ((propFindAll b).filterMap
        (fun nv => if pyLower (pyStrip (String.mk nv.1)) = k
                   then some (pyStrip (String.mk nv.2)) else none)) none := by
  unfold parseProps storeProp
  have hm := List.foldl_map
    (fun nv : List Char × List Char =>
      (pyLower (pyStrip (String.mk nv.1)), pyStrip (String.mk nv.2)))
    (fun acc p => dictSet acc p.1 p.2) (propFindAll b) ([] : Props)
  rw [← hm, dictGet_foldl_pairs, List.filterMap_map]
  rfl

/-- **C2.** `parse_font_faces` returns exactly one properties mapping per
occurrence of the `@font-face` block pattern, in source order, for every
CSS input; each block's pairs are stored under the lower-cased property
name with the last duplicate winning; a block with no property lines
yields an empty mapping. -/
theorem parse_font_faces_spec :
    (∀ css : String, parse_font_faces css = (fontFaceFindAll css.data).map parseProps) ∧
    (∀ css : String, (parse_font_faces css).length = (fontFaceFindAll css.data).length) ∧
    (∀ b : List Char, ∀ k : String,
      dictGet? (parseProps b) k =
        lastWins ((propFindAll b).filterMap
          (fun nv => if pyLower (pyStrip (String.mk nv.1)) = k
                     then some (pyStrip (String.mk nv.2)) else none)) none) ∧
    (∀ b : List Char, propFindAll b = [] → parseProps b = []) := by
  have h1 : ∀ css : String,
      parse_font_faces css = (fontFaceFindAll css.data).map parseProps := by
    intro css
    unfold parse_font_faces
    rw [foldl_append_eq_map]
    simp
  refine ⟨h1, fun css => by rw [h1 css]; simp, parseProps_lookup, ?_⟩
  intro b hb
  unfold parseProps
  rw [hb]
  rfl

/-- Witness for C2 at a concrete block with no `property: value;` line. -/
theorem parse_font_faces_spec_witness :
    propFindAll "color(q)".data = [] ∧ parseProps "color(q)".data = [] :=
  ⟨by decide, parse_font_faces_spec.2.2.2 "color(q)".data (by decide)⟩

/-! ## C7: faces without a usable `src` are silently skipped -/

/-- **C7.** A face whose `src` property is absent, empty, or has no
`url(...)` occurrence is skipped entirely: it builds no descriptor, a
loop iteration on it changes neither the output directory nor the
descriptor list, and deleting it from the face list leaves the whole
run's result unchanged (so it appears in no binding and no count). -/
theorem skip_unusable_src (cssUrl : String) (fetch : String → List Nat)
    (face : Props)
    (h : dictGet? face "src" = none ∨ dictGet? face "src" = some "" ∨
         (∀ s, dictGet? face "src" = some s → urlFindAll s.data = [])) :
    buildDescriptor cssUrl fetch face = none ∧
    (∀ st : FS × List Descriptor, runStep cssUrl fetch st face = st) ∧
    (∀ faces₁ faces₂ : List Props, ∀ fs0 : FS,
      runMain cssUrl fetch (faces₁ ++ face :: faces₂) fs0 =
        runMain cssUrl fetch (faces₁ ++ faces₂) fs0) := by
  have hb : buildDescriptor cssUrl fetch face = none := by
    rcases h with h | h | h
    · unfold buildDescriptor
      rw [h]
      rfl
    · unfold buildDescriptor pick_url
      rw [h]
      simp
    · unfold buildDescriptor pick_url
      cases hs : dictGet? face "src" with
      | none => rfl
      | some s =>
        dsimp only
        by_cases hse : s = ""
        · rw [if_pos hse]
        · rw [if_neg hse, h s hs]
  have hstep : ∀ st : FS × List Descriptor, runStep cssUrl fetch st face = st := by
    intro st
    unfold runStep
    rw [hb]
  refine ⟨hb, hstep, ?_⟩
  intro faces₁ faces₂ fs0
  unfold runMain
  rw [List.foldl_append, List.foldl_append, List.foldl_cons, hstep]

/-- Witness for C7 at a concrete face whose `src` has no `url(...)`. -/
theorem skip_unusable_src_witness :
    (dictGet? [("src", "local(x)")] "src" = none ∨
     dictGet? [("src", "local(x)")] "src" = some "" ∨
     (∀ s, dictGet? [("src", "local(x)")] "src" = some s → urlFindAll s.data = [])) ∧
    buildDescriptor "http://e/f.css" (fun _ => []) [("src", "local(x)")] = none ∧
    runStep "http://e/f.css" (fun _ => []) ([], []) [("src", "local(x)")] = ([], []) := by
  have hcond : (dictGet? [("src", "local(x)")] "src" = none ∨
      dictGet? [("src", "local(x)")] "src" = some "" ∨
      (∀ s, dictGet? [("src", "local(x)")] "src" = some s → urlFindAll s.data = [])) := by
    right; right
    intro s hs
    have : s = "local(x)" := by
      have h' := hs
      simp [dictGet?] at h'
      exact h'.symm
    subst this
    decide
  have hmain := skip_unusable_src "http://e/f.css" (fun _ => []) [("src", "local(x)")] hcond
  exact ⟨hcond, hmain.1, hmain.2.1 ([], [])⟩

/-! ## C10: weight/style lower-casing, unicode-range case preserved -/

/-- Inversion of a successful `buildDescriptor`: the descriptor's fields
come from the corresponding parse helpers on the face's properties. -/
theorem buildDescriptor_fields (cssUrl : String) (fetch : String → List Nat)
    (face : Props) (d : Descriptor) (fn : String) (data : List Nat)
    (h : buildDescriptor cssUrl fetch face = some (d, fn, data)) :
    d.resource_name = resourceNameOf (sha1_hex data) ∧
    d.family = clean_value (dictGetD face "font-family" "Unknown") ∧
    d.weight = parse_weight (dictGet? face "font-weight") ∧
    d.style = parse_style (dictGet? face "font-style") ∧
    d.ranges = parse_unicode_ranges (dictGet? face "unicode-range") := by
  unfold buildDescriptor at h
  split at h
  · exact absurd h (by simp)
  · rename_i u hu
    split at h
    · exact absurd h (by simp)
    · simp only [Option.some.injEq, Prod.mk.injEq] at h
      obtain ⟨hd, _, hdata⟩ := h
      subst hdata
      rw [← hd]
      exact ⟨rfl, rfl, rfl, rfl, rfl⟩

/-- **C10.** For every face, the descriptor's weight and style are the
quote-stripped, whitespace-stripped, lower-cased property values — the
lower-casing applies also when the property is explicitly present (e.g.
`"Bold"` becomes `bold`), not only on the `normal` default; the
unicode-range value is quote-stripped and whitespace-stripped but its
letter case is untouched. -/
theorem weight_style_casing :
    (∀ v : String, v ≠ "" →
      parse_weight (some v) = pyLower (pyStrip (clean_value v)) ∧
      parse_style (some v) = pyLower (pyStrip (clean_value v)) ∧
      parse_unicode_ranges (some v) = pyStrip (clean_value v)) ∧
    parse_weight (some (String.mk ['"', 'B', 'o', 'l', 'd', '"'])) = "bold" ∧
    parse_style (some "Italic") = "italic" ∧
    parse_unicode_ranges (some "U+00-FF") = "U+00-FF" ∧
    (∀ cssUrl fetch face d fn data,
      buildDescriptor cssUrl fetch face = some (d, fn, data) →
        d.weight = parse_weight (dictGet? face "font-weight") ∧
        d.style = parse_style (dictGet? face "font-style") ∧
        d.ranges = parse_unicode_ranges (dictGet? face "unicode-range")) := by
  refine ⟨?_, by decide, by decide, by decide, ?_⟩
  · intro v hv
    unfold parse_weight parse_style parse_unicode_ranges
    simp [hv]
  · intro cssUrl fetch face d fn data h
    have := buildDescriptor_fields cssUrl fetch face d fn data h
    exact ⟨this.2.2.1, this.2.2.2.1, this.2.2.2.2⟩

/-- Witness for C10 at a concrete face with an explicit bold weight. -/
theorem weight_style_casing_witness :
    (String.mk ['"', 'B', 'o', 'l', 'd', '"'] ≠ "") ∧
    parse_weight (some (String.mk ['"', 'B', 'o', 'l', 'd', '"'])) =
      pyLower (pyStrip (clean_value (String.mk ['"', 'B', 'o', 'l', 'd', '"']))) ∧
    (∀ d fn data,
      buildDescriptor "http://e/f.css" (fun _ => [])
          [("src", "url(http://e/a.woff2)"), ("font-weight", String.mk ['"', 'B', 'o', 'l', 'd', '"'])] =
        some (d, fn, data) →
      d.weight = parse_weight (dictGet?
        [("src", "url(http://e/a.woff2)"), ("font-weight", String.mk ['"', 'B', 'o', 'l', 'd', '"'])]
        "font-weight")) := by
  refine ⟨by decide, (weight_style_casing.1 _ (by decide)).1, ?_⟩
  intro d fn data h
  exact (weight_style_casing.2.2.2.2 _ _ _ _ _ _ h).1

/-! ## C3: the generated file's header -/

/-- Counterexample to C3 as stated: after the package line and its blank
line, the claim puts exactly three import-style lines followed by a
blank line, so line index 5 would be blank; in the generated file line 5
is a fourth import line. -/
theorem kotlin_header_counterexample :
    (kotlinLines "p" "r" [])[5]? =
      some "import xyz.hyli.klyph.StaticFontDescriptorProvider" ∧
    ¬(kotlinLines "p" "r" [])[5]? = some "" := by
  constructor
  · rfl
  · decide

/-- **C3 (amended).** After the optional package line and its blank
line, the generated bindings file contains exactly four fixed
import-style lines — two referencing the `--res-package` value and one
referencing each of two fixed library namespaces — followed by a blank
line, before the per-family provider declarations. -/
theorem kotlin_header_amended (kp rp : String) (ds : List Descriptor)
    (hk : ¬kp = "") :
    kotlinLines kp rp ds =
      ["package " ++ kp, "",
       "import " ++ rp ++ ".Res",
       "import " ++ rp ++ ".*",
       "import xyz.hyli.klyph.ResourceFontDescriptor",
       "import xyz.hyli.klyph.StaticFontDescriptorProvider",
       ""] ++
      ((groupFamilies ds).foldl (fun acc fam => acc ++ familySection fam) [] ++ [""]) := by
  unfold kotlinLines
  rw [if_neg hk]
  rfl

/-- Witness for C3 (amended) at a concrete package and empty descriptor
list. -/
theorem kotlin_header_amended_witness :
    ¬("p" : String) = "" ∧
    kotlinLines "p" "r" [] =
      ["package p", "",
       "import r.Res",
       "import r.*",
       "import xyz.hyli.klyph.ResourceFontDescriptor",
       "import xyz.hyli.klyph.StaticFontDescriptorProvider",
       ""] ++
      ((groupFamilies []).foldl (fun acc fam => acc ++ familySection fam) [] ++ [""]) :=
  ⟨by decide, kotlin_header_amended "p" "r" [] (by decide)⟩

/-! ## C8: skip-if-present writes and idempotent re-runs -/

/-- `target.exists()` on the modelled output directory. -/
def containsKey (fs : FS) (fn : String) : Bool :=
  fs.any (fun e => e.1 = fn)

theorem writeIfAbsent_of_contains (fs : FS) (fn : String) (data : List Nat)
    (h : containsKey fs fn = true) : writeIfAbsent fs fn data = fs := by
  unfold writeIfAbsent
  unfold containsKey at h
  rw [if_pos h]

/-- The descriptors a run produces, independently of the directory
state. -/
def descsOf (cssUrl : String) (fetch : String → List Nat) (faces : List Props) :
    List Descriptor :=
  faces.filterMap (fun face => (buildDescriptor cssUrl fetch face).map (fun x => x.1))

/-- The (filename, bytes) pairs a run offers to the Resource Writer. -/
def filesOf (cssUrl : String) (fetch : String → List Nat) (faces : List Props) :
    List (String × List Nat) :=
  faces.filterMap
    (fun face => (buildDescriptor cssUrl fetch face).map (fun x => (x.2.1, x.2.2)))

theorem runMain_decomp (cssUrl : String) (fetch : String → List Nat)
    (faces : List Props) :
    ∀ (fs0 : FS) (ds0 : List Descriptor),
      faces.foldl (runStep cssUrl fetch) (fs0, ds0) =
        ((filesOf cssUrl fetch faces).foldl (fun fs e => writeIfAbsent fs e.1 e.2) fs0,
         ds0 ++ descsOf cssUrl fetch faces) := by
  induction faces with
  | nil =>
    intro fs0 ds0
    simp [filesOf, descsOf]
  | cons face rest ih =>
    intro fs0 ds0
    rw [List.foldl_cons]
    unfold filesOf descsOf
    rw [List.filterMap_cons, List.filterMap_cons]
    cases hb : buildDescriptor cssUrl fetch face with
    | none =>
      have hs : runStep cssUrl fetch (fs0, ds0) face = (fs0, ds0) := by
        unfold runStep
        rw [hb]
      rw [hs, ih fs0 ds0]
      rfl
    | some x =>
      obtain ⟨d, fn, data⟩ := x
      have hs : runStep cssUrl fetch (fs0, ds0) face =
          (writeIfAbsent fs0 fn data, ds0 ++ [d]) := by
        unfold runStep
        rw [hb]
      rw [hs, ih (writeIfAbsent fs0 fn data) (ds0 ++ [d])]
      unfold filesOf descsOf
      simp

theorem runMain_eq (cssUrl : String) (fetch : String → List Nat)
    (faces : List Props) (fs0 : FS) :
    runMain cssUrl fetch faces fs0 =
      ((filesOf cssUrl fetch faces).foldl (fun fs e => writeIfAbsent fs e.1 e.2) fs0,
       descsOf cssUrl fetch faces) := by
  unfold runMain
  rw [runMain_decomp]
  simp

theorem containsKey_writeIfAbsent_self (fs : FS) (fn : String) (data : List Nat) :
    containsKey (writeIfAbsent fs fn data) fn = true := by
  unfold writeIfAbsent
  by_cases h : fs.any (fun e => e.1 = fn)
  · rw [if_pos h]
    exact h
  · rw [if_neg h]
    unfold containsKey
    simp [List.any_append]

theorem containsKey_writeIfAbsent_mono (fs : FS) (fn : String) (data : List Nat)
    (fn' : String) (h : containsKey fs fn' = true) :
    containsKey (writeIfAbsent fs fn data) fn' = true := by
  unfold writeIfAbsent
  split
  · exact h
  · unfold containsKey at h ⊢
    simp [List.any_append, h]

theorem containsKey_foldl_mono (files : List (String × List Nat)) (fs : FS)
    (fn : String) (h : containsKey fs fn = true) :
    containsKey (files.foldl (fun fs e => writeIfAbsent fs e.1 e.2) fs) fn = true := by
  induction files generalizing fs with
  | nil => exact h
  | cons e rest ih =>
    rw [List.foldl_cons]
    exact ih _ (containsKey_writeIfAbsent_mono _ _ _ _ h)

theorem containsKey_foldl_mem (files : List (String × List Nat)) (fs : FS)
    (fn : String) (data : List Nat) (hmem : (fn, data) ∈ files) :
    containsKey (files.foldl (fun fs e => writeIfAbsent fs e.1 e.2) fs) fn = true := by
  induction files generalizing fs with
  | nil => simp at hmem
  | cons e rest ih =>
    rw [List.foldl_cons]
    rcases List.mem_cons.mp hmem with he | he
    · subst he
      exact containsKey_foldl_mono rest _ fn (containsKey_writeIfAbsent_self fs fn data)
    · exact ih _ he

theorem foldl_write_noop (files : List (String × List Nat)) (fs : FS)
    (h : ∀ e ∈ files, containsKey fs e.1 = true) :
    files.foldl (fun fs e => writeIfAbsent fs e.1 e.2) fs = fs := by
  induction files with
  | nil => rfl
  | cons e rest ih =>
    rw [List.foldl_cons, writeIfAbsent_of_contains _ _ _ (h e (List.mem_cons_self e rest))]
    exact ih (fun e' he' => h e' (List.mem_cons_of_mem e he'))

/-- **C8.** A write whose filename already exists in the output
directory is skipped, leaving the directory (hence the existing bytes)
unchanged; re-running the whole tool against the directory produced by a
first run, with unchanged inputs, performs zero writes — the directory
is returned exactly as it was — while the descriptor list and the
generated bindings file are identical to the first run's. -/
theorem rerun_idempotent (cssUrl : String) (fetch : String → List Nat)
    (faces : List Props) (kp rp : String) (fs : FS) (fn : String) (data : List Nat)
    (hex : containsKey fs fn = true) :
    writeIfAbsent fs fn data = fs ∧
    runMain cssUrl fetch faces (runMain cssUrl fetch faces fs).1 =
      ((runMain cssUrl fetch faces fs).1, (runMain cssUrl fetch faces fs).2) ∧
    kotlinFileText kp rp (runMain cssUrl fetch faces (runMain cssUrl fetch faces fs).1).2 =
      kotlinFileText kp rp (runMain cssUrl fetch faces fs).2 := by
  have hrun : runMain cssUrl fetch faces (runMain cssUrl fetch faces fs).1 =
      ((runMain cssUrl fetch faces fs).1, (runMain cssUrl fetch faces fs).2) := by
    rw [runMain_eq cssUrl fetch faces fs, runMain_eq]
    have hnoop : (filesOf cssUrl fetch faces).foldl
        (fun fs e => writeIfAbsent fs e.1 e.2)
        ((filesOf cssUrl fetch faces).foldl (fun fs e => writeIfAbsent fs e.1 e.2) fs) =
        (filesOf cssUrl fetch faces).foldl (fun fs e => writeIfAbsent fs e.1 e.2) fs := by
      apply foldl_write_noop
      intro e he
      obtain ⟨fn', data'⟩ := e
      exact containsKey_foldl_mem _ _ _ _ he
    rw [hnoop]
  exact ⟨writeIfAbsent_of_contains fs fn data hex, hrun,
    congrArg (fun ds => kotlinFileText kp rp ds) (congrArg Prod.snd hrun)⟩

/-- Witness for C8 at a concrete directory state and run. -/
theorem rerun_idempotent_witness :
    containsKey [("a.woff2", [1])] "a.woff2" = true ∧
    writeIfAbsent [("a.woff2", [1])] "a.woff2" [9] = [("a.woff2", [1])] := by
  have h := rerun_idempotent "http://e/f.css" (fun _ => []) [] "p" "r"
    [("a.woff2", [1])] "a.woff2" [9] (by decide)
  exact ⟨by decide, h.1⟩

/-! ## C1: content-hash dedup -/

/-- The number of files stored under a given filename. -/
def countKey (fs : FS) (fn : String) : Nat :=
  (fs.filter (fun e => e.1 = fn)).length

theorem countKey_zero_of_not_contains (fs : FS) (fn : String)
    (h : containsKey fs fn = false) : countKey fs fn = 0 := by
  unfold countKey
  induction fs with
  | nil => rfl
  | cons e rest ih =>
    unfold containsKey at h ih
    rw [List.any_cons] at h
    simp only [Bool.or_eq_false_iff] at h
    rw [List.filter_cons, if_neg (by simp [h.1])]
    exact ih h.2

theorem countKey_pos_of_contains (fs : FS) (fn : String)
    (h : containsKey fs fn = true) : 1 ≤ countKey fs fn := by
  induction fs with
  | nil => simp [containsKey] at h
  | cons e rest ih =>
    unfold containsKey at h ih
    rw [List.any_cons] at h
    unfold countKey
    rw [List.filter_cons]
    by_cases hp : e.1 = fn
    · rw [if_pos (by simp [hp])]
      simp
    · rw [if_neg (by simp [hp])]
      have hrest : rest.any (fun x => x.1 = fn) = true := by
        rcases Bool.or_eq_true_iff.mp h with h' | h'
        · exact absurd (by simpa using h') hp
        · exact h'
      exact ih hrest

theorem countKey_writeIfAbsent_le (fs : FS) (fn : String) (data : List Nat)
    (fn' : String) (h : countKey fs fn' ≤ 1) :
    countKey (writeIfAbsent fs fn data) fn' ≤ 1 := by
  unfold writeIfAbsent
  by_cases hc : fs.any (fun e => e.1 = fn)
  · rw [if_pos hc]
    exact h
  · rw [if_neg hc]
    unfold countKey
    rw [List.filter_append, List.length_append]
    by_cases hf : fn = fn'
    · subst hf
      have h0 : countKey fs fn = 0 := by
        apply countKey_zero_of_not_contains
        unfold containsKey
        revert hc
        cases fs.any (fun e => e.1 = fn) <;> simp
      unfold countKey at h0
      rw [h0]
      simp
    · have hone : ([(fn, data)].filter (fun e => e.1 = fn')).length = 0 := by
        simp [hf]
      rw [hone]
      unfold countKey at h
      omega

theorem countKey_foldl_le (files : List (String × List Nat)) (fs : FS)
    (fn' : String) (h : countKey fs fn' ≤ 1) :
    countKey (files.foldl (fun fs e => writeIfAbsent fs e.1 e.2) fs) fn' ≤ 1 := by
  induction files generalizing fs with
  | nil => exact h
  | cons e rest ih =>
    rw [List.foldl_cons]
    exact ih _ (countKey_writeIfAbsent_le _ _ _ _ h)

theorem mem_famAdd_self (acc : List (String × List Descriptor)) (d : Descriptor) :
    ∃ e ∈ famAdd acc d, d ∈ e.2 := by
  induction acc with
  | nil => exact ⟨(d.family, [d]), by simp [famAdd], by simp⟩
  | cons a rest ih =>
    obtain ⟨f, items⟩ := a
    unfold famAdd
    by_cases hf : f = d.family
    · rw [if_pos hf]
      exact ⟨(f, items ++ [d]), by simp, by simp⟩
    · rw [if_neg hf]
      obtain ⟨e, he, hde⟩ := ih
      exact ⟨e, by simp [he], hde⟩

theorem mem_famAdd_preserved (acc : List (String × List Descriptor))
    (d0 d : Descriptor) (h : ∃ e ∈ acc, d ∈ e.2) :
    ∃ e ∈ famAdd acc d0, d ∈ e.2 := by
  induction acc with
  | nil => simp at h
  | cons a rest ih =>
    obtain ⟨f, items⟩ := a
    obtain ⟨e, he, hde⟩ := h
    unfold famAdd
    by_cases hf : f = d0.family
    · rw [if_pos hf]
      rcases List.mem_cons.mp he with he' | he'
      · subst he'
        exact ⟨(f, items ++ [d0]), by simp, List.mem_append.mpr (Or.inl hde)⟩
      · exact ⟨e, by simp [he'], hde⟩
    · rw [if_neg hf]
      rcases List.mem_cons.mp he with he' | he'
      · subst he'
        exact ⟨(f, items), by simp, hde⟩
      · obtain ⟨e', he'', hde'⟩ := ih ⟨e, he', hde⟩
        exact ⟨e', by simp [he''], hde'⟩

theorem mem_groupFamilies (ds : List Descriptor) (d : Descriptor) (h : d ∈ ds) :
    ∃ e ∈ groupFamilies ds, d ∈ e.2 := by
  unfold groupFamilies
  suffices hgen : ∀ (l : List Descriptor) (acc : List (String × List Descriptor)),
      (d ∈ l ∨ ∃ e ∈ acc, d ∈ e.2) → ∃ e ∈ l.foldl famAdd acc, d ∈ e.2 by
    exact hgen ds [] (Or.inl h)
  intro l
  induction l with
  | nil =>
    intro acc hacc
    rcases hacc with h' | h'
    · simp at h'
    · exact h'
  | cons d0 rest ih =>
    intro acc hacc
    rw [List.foldl_cons]
    apply ih
    rcases hacc with h' | h'
    · rcases List.mem_cons.mp h' with h'' | h''
      · subst h''
        exact Or.inr (mem_famAdd_self acc d)
      · exact Or.inl h''
    · exact Or.inr (mem_famAdd_preserved acc d0 d h')

theorem mem_foldl_sections (groups : List (String × List Descriptor))
    (init : List String) (l : String)
    (h : l ∈ init ∨ ∃ g ∈ groups, l ∈ familySection g) :
    l ∈ groups.foldl (fun acc fam => acc ++ familySection fam) init := by
  induction groups generalizing init with
  | nil =>
    rcases h with h | h
    · exact h
    · simp at h
  | cons g rest ih =>
    rw [List.foldl_cons]
    apply ih
    rcases h with h | ⟨g', hg', hl⟩
    · exact Or.inl (List.mem_append.mpr (Or.inl h))
    · rcases List.mem_cons.mp hg' with hg'' | hg''
      · subst hg''
        exact Or.inl (List.mem_append.mpr (Or.inr hl))
      · exact Or.inr ⟨g', hg'', hl⟩

/-- Every descriptor of the run contributes its member line to the
generated bindings. -/
theorem memberLine_mem_kotlin (kp rp : String) (ds : List Descriptor)
    (d : Descriptor) (h : d ∈ ds) : memberLine d ∈ kotlinLines kp rp ds := by
  obtain ⟨e, he, hde⟩ := mem_groupFamilies ds d h
  unfold kotlinLines
  apply List.mem_append.mpr
  left
  apply List.mem_append.mpr
  right
  apply mem_foldl_sections _ _ _ (Or.inr ⟨e, he, ?_⟩)
  unfold familySection
  apply List.mem_cons.mpr
  right
  exact List.mem_append.mpr (Or.inl (List.mem_map_of_mem memberLine hde))

theorem mem_descsOf (cssUrl : String) (fetch : String → List Nat)
    (faces : List Props) (face : Props) (d : Descriptor) (fn : String)
    (data : List Nat) (hface : face ∈ faces)
    (hb : buildDescriptor cssUrl fetch face = some (d, fn, data)) :
    d ∈ descsOf cssUrl fetch faces := by
  unfold descsOf
  exact List.mem_filterMap.mpr ⟨face, hface, by rw [hb]; rfl⟩

theorem mem_filesOf (cssUrl : String) (fetch : String → List Nat)
    (faces : List Props) (face : Props) (d : Descriptor) (fn : String)
    (data : List Nat) (hface : face ∈ faces)
    (hb : buildDescriptor cssUrl fetch face = some (d, fn, data)) :
    (fn, data) ∈ filesOf cssUrl fetch faces := by
  unfold filesOf
  exact List.mem_filterMap.mpr ⟨face, hface, by rw [hb]; rfl⟩

/-- **C1 (amended).** Two faces whose `src` URLs resolve to
byte-identical binaries get the same hash-derived `resourceName`, and
both descriptors appear in the run's descriptor list and contribute
their lines to the emitted bindings; when the two derived filenames also
coincide (the extensions agree — they are derived from the URLs, not
from the bytes), exactly one file with that name is in the output
directory after a run that started from an empty directory. -/
theorem dedup_same_bytes (cssUrl : String) (fetch : String → List Nat)
    (faces : List Props) (kp rp : String) (f1 f2 : Props)
    (h1 : f1 ∈ faces) (h2 : f2 ∈ faces)
    (d1 d2 : Descriptor) (fn1 fn2 : String) (data1 data2 : List Nat)
    (hb1 : buildDescriptor cssUrl fetch f1 = some (d1, fn1, data1))
    (hb2 : buildDescriptor cssUrl fetch f2 = some (d2, fn2, data2))
    (hdata : data1 = data2) :
    d1.resource_name = d2.resource_name ∧
    d1 ∈ (runMain cssUrl fetch faces []).2 ∧
    d2 ∈ (runMain cssUrl fetch faces []).2 ∧
    memberLine d1 ∈ kotlinLines kp rp (runMain cssUrl fetch faces []).2 ∧
    memberLine d2 ∈ kotlinLines kp rp (runMain cssUrl fetch faces []).2 ∧
    (fn1 = fn2 → countKey (runMain cssUrl fetch faces []).1 fn1 = 1) := by
  have hr1 := buildDescriptor_fields cssUrl fetch f1 d1 fn1 data1 hb1
  have hr2 := buildDescriptor_fields cssUrl fetch f2 d2 fn2 data2 hb2
  have hname : d1.resource_name = d2.resource_name := by
    rw [hr1.1, hr2.1, hdata]
  have hds : (runMain cssUrl fetch faces []).2 = descsOf cssUrl fetch faces := by
    rw [runMain_eq]
  have hmem1 : d1 ∈ (runMain cssUrl fetch faces []).2 := by
    rw [hds]
    exact mem_descsOf cssUrl fetch faces f1 d1 fn1 data1 h1 hb1
  have hmem2 : d2 ∈ (runMain cssUrl fetch faces []).2 := by
    rw [hds]
    exact mem_descsOf cssUrl fetch faces f2 d2 fn2 data2 h2 hb2
  refine ⟨hname, hmem1, hmem2,
    memberLine_mem_kotlin kp rp _ d1 hmem1, memberLine_mem_kotlin kp rp _ d2 hmem2, ?_⟩
  intro _
  have hfs : (runMain cssUrl fetch faces []).1 =
      (filesOf cssUrl fetch faces).foldl (fun fs e => writeIfAbsent fs e.1 e.2) [] := by
    rw [runMain_eq]
  rw [hfs]
  have hle : countKey ((filesOf cssUrl fetch faces).foldl
      (fun fs e => writeIfAbsent fs e.1 e.2) []) fn1 ≤ 1 :=
    countKey_foldl_le _ [] fn1 (by simp [countKey])
  have hge : 1 ≤ countKey ((filesOf cssUrl fetch faces).foldl
      (fun fs e => writeIfAbsent fs e.1 e.2) []) fn1 :=
    countKey_pos_of_contains _ _
      (containsKey_foldl_mem _ [] fn1 data1
        (mem_filesOf cssUrl fetch faces f1 d1 fn1 data1 h1 hb1))
  omega

/-- Counterexample to C1 as stated: with the stylesheet at
`http://e/f.css` and both fonts serving the single byte `0x00`, the two
faces `url(http://e/a.woff2)` and `url(http://e/a.ttf)` resolve to
byte-identical binaries and get the same resourceName, yet TWO files are
written to the (initially empty) output directory, because the file
extension comes from the URL path, not from the bytes. -/
theorem dedup_counterexample :
    (runMain "http://e/f.css" (fun _ => [0])
        [[("src", "url(http://e/a.woff2)")], [("src", "url(http://e/a.ttf)")]] []).1 =
      [("_5ba93c9db0cff93f52b521d7420e43f6eda2784f.woff2", [0]),
       ("_5ba93c9db0cff93f52b521d7420e43f6eda2784f.ttf", [0])] ∧
    ¬((runMain "http://e/f.css" (fun _ => [0])
        [[("src", "url(http://e/a.woff2)")], [("src", "url(http://e/a.ttf)")]] []).1).length = 1 ∧
    ((runMain "http://e/f.css" (fun _ => [0])
        [[("src", "url(http://e/a.woff2)")], [("src", "url(http://e/a.ttf)")]] []).2.map
      Descriptor.resource_name) =
      ["_5ba93c9db0cff93f52b521d7420e43f6eda2784f",
       "_5ba93c9db0cff93f52b521d7420e43f6eda2784f"] := by
  decide

/-- Witness for C1 (amended) at two concrete same-extension faces
serving identical bytes. -/
theorem dedup_same_bytes_witness :
    buildDescriptor "http://e/f.css" (fun _ => [0]) [("src", "url(http://e/a.woff2)")] =
      some ({ resource_name := "_5ba93c9db0cff93f52b521d7420e43f6eda2784f",
              family := "Unknown", weight := "normal", style := "normal", ranges := "" },
            "_5ba93c9db0cff93f52b521d7420e43f6eda2784f.woff2", [0]) ∧
    buildDescriptor "http://e/f.css" (fun _ => [0]) [("src", "url(http://e/b.woff2)")] =
      some ({ resource_name := "_5ba93c9db0cff93f52b521d7420e43f6eda2784f",
              family := "Unknown", weight := "normal", style := "normal", ranges := "" },
            "_5ba93c9db0cff93f52b521d7420e43f6eda2784f.woff2", [0]) ∧
    countKey
      (runMain "http://e/f.css" (fun _ => [0])
        [[("src", "url(http://e/a.woff2)")], [("src", "url(http://e/b.woff2)")]] []).1
      "_5ba93c9db0cff93f52b521d7420e43f6eda2784f.woff2" = 1 := by
  have hb1 : buildDescriptor "http://e/f.css" (fun _ => [0])
      [("src", "url(http://e/a.woff2)")] =
      some ({ resource_name := "_5ba93c9db0cff93f52b521d7420e43f6eda2784f",
              family := "Unknown", weight := "normal", style := "normal", ranges := "" },
            "_5ba93c9db0cff93f52b521d7420e43f6eda2784f.woff2", [0]) := by decide
  have hb2 : buildDescriptor "http://e/f.css" (fun _ => [0])
      [("src", "url(http://e/b.woff2)")] =
      some ({ resource_name := "_5ba93c9db0cff93f52b521d7420e43f6eda2784f",
              family := "Unknown", weight := "normal", style := "normal", ranges := "" },
            "_5ba93c9db0cff93f52b521d7420e43f6eda2784f.woff2", [0]) := by decide
  refine ⟨hb1, hb2, ?_⟩
  exact (dedup_same_bytes "http://e/f.css" (fun _ => [0])
      [[("src", "url(http://e/a.woff2)")], [("src", "url(http://e/b.woff2)")]] "p" "r"
      [("src", "url(http://e/a.woff2)")] [("src", "url(http://e/b.woff2)")]
      (by decide) (by decide) _ _ _ _ _ _ hb1 hb2 rfl).2.2.2.2.2 rfl

/-! ## C9: the extension comes from the URL's path component -/

theorem splitFirst_none_of_not_mem (l : List Char) (c : Char) (h : c ∉ l) :
    splitFirst l c = none := by
  induction l with
  | nil => rfl
  | cons x t ih =>
    unfold splitFirst
    rw [if_neg (fun he => h (List.mem_cons.mpr (Or.inl he.symm)))]
    rw [ih (fun hm => h (List.mem_cons_of_mem x hm))]
    rfl

theorem splitFirst_marker (B X : List Char) (c : Char) (h : c ∉ B) :
    splitFirst (B ++ c :: X) c = some (B, X) := by
  induction B with
  | nil =>
    show (if c = c then some ([], X)
          else (splitFirst X c).map (fun p => (c :: p.1, p.2))) = some ([], X)
    rw [if_pos rfl]
  | cons b t ih =>
    show (if b = c then some ([], t ++ c :: X)
          else (splitFirst (t ++ c :: X) c).map (fun p => (b :: p.1, p.2))) = _
    rw [if_neg (fun he => h (List.mem_cons.mpr (Or.inl he.symm)))]
    rw [ih (fun hm => h (List.mem_cons_of_mem b hm))]
    rfl

theorem splitFirst_append_some (P X : List Char) (c : Char) :
    ∀ a b, splitFirst P c = some (a, b) →
      splitFirst (P ++ X) c = some (a, b ++ X) := by
  induction P with
  | nil => intro a b h; simp [splitFirst] at h
  | cons x t ih =>
    intro a b h
    unfold splitFirst at h
    show (if x = c then some ([], t ++ X)
          else (splitFirst (t ++ X) c).map (fun p => (x :: p.1, p.2))) = some (a, b ++ X)
    by_cases hx : x = c
    · rw [if_pos hx] at h ⊢
      simp only [Option.some.injEq, Prod.mk.injEq] at h
      obtain ⟨h1, h2⟩ := h
      subst h1
      subst h2
      rfl
    · rw [if_neg hx] at h ⊢
      match hs : splitFirst t c with
      | none => rw [hs] at h; simp at h
      | some (a', b') =>
        rw [hs] at h
        simp only [Option.map_some', Option.some.injEq, Prod.mk.injEq] at h
        obtain ⟨h1, h2⟩ := h
        subst h1
        subst h2
        rw [ih a' b' hs]
        rfl

theorem splitFirst_append_none (P X : List Char) (c : Char)
    (h : splitFirst P c = none) :
    splitFirst (P ++ X) c = (splitFirst X c).map (fun pr => (P ++ pr.1, pr.2)) := by
  induction P with
  | nil =>
    cases hX : splitFirst X c with
    | none => simp [hX]
    | some pr => simp [hX]
  | cons x t ih =>
    unfold splitFirst at h
    show (if x = c then some ([], t ++ X)
          else (splitFirst (t ++ X) c).map (fun p => (x :: p.1, p.2))) =
      (splitFirst X c).map (fun pr => ((x :: t) ++ pr.1, pr.2))
    by_cases hx : x = c
    · rw [if_pos hx] at h
      simp at h
    · rw [if_neg hx] at h ⊢
      match hs : splitFirst t c with
      | some pr => rw [hs] at h; simp at h
      | none =>
        rw [ih hs]
        cases hX : splitFirst X c with
        | none => simp
        | some pr => simp

theorem dropWhile_append_headneg (p : Char → Bool) (P R : List Char) (c : Char)
    (hR : R.head? = some c) (hc : p c = false) :
    (P ++ R).dropWhile p = P.dropWhile p ++ R := by
  rw [List.dropWhile_append]
  split
  · rename_i h
    have hP : P.dropWhile p = [] := by simpa [List.isEmpty_iff] using h
    rw [hP, List.nil_append]
    cases R with
    | nil => simp at hR
    | cons c0 t =>
      have hc0 : c0 = c := by simpa using hR
      subst hc0
      exact List.dropWhile_cons_of_neg (by simp [hc])
  · rfl

/-- Scheme detection ignores everything at and after a leading `?`
appended behind a `?`/`#`-free prefix. -/
theorem schemeSplit_append (ds : String) (P R : List Char)
    (hP : ∀ c ∈ P, c ≠ '?' ∧ c ≠ '#') (hR : R.head? = some '?') :
    (schemeSplit ds (P ++ R)).1 = (schemeSplit ds P).1 ∧
    (schemeSplit ds (P ++ R)).2 = (schemeSplit ds P).2 ++ R := by
  obtain ⟨R', hRR⟩ : ∃ R', R = '?' :: R' := by
    cases R with
    | nil => simp at hR
    | cons c t =>
      have : c = '?' := by simpa using hR
      subst this
      exact ⟨t, rfl⟩
  subst hRR
  unfold schemeSplit
  match hs : splitFirst P ':' with
  | some ([], b) =>
    rw [splitFirst_append_some P ('?' :: R') ':' [] b hs]
    exact ⟨rfl, rfl⟩
  | some (c0 :: pre, b) =>
    rw [splitFirst_append_some P ('?' :: R') ':' (c0 :: pre) b hs]
    dsimp only
    by_cases hcond : ((c0 :: pre).all isSchemeChar && c0.isAlpha) = true
    · rw [if_pos hcond, if_pos hcond]
      exact ⟨rfl, rfl⟩
    · rw [if_neg hcond, if_neg hcond]
      exact ⟨rfl, rfl⟩
  | none =>
    rw [splitFirst_append_none P ('?' :: R') ':' hs]
    match hX : splitFirst ('?' :: R') ':' with
    | none => exact ⟨rfl, rfl⟩
    | some (a', b') =>
      have ha' : ∃ a'', a' = '?' :: a'' := by
        simp only [splitFirst] at hX
        rw [if_neg (by decide)] at hX
        match hY : splitFirst R' ':' with
        | none => rw [hY] at hX; simp at hX
        | some (x, y) =>
          rw [hY] at hX
          simp only [Option.map_some', Option.some.injEq, Prod.mk.injEq] at hX
          exact ⟨x, hX.1.symm⟩
      obtain ⟨a'', hra⟩ := ha'
      subst hra
      simp only [Option.map_some']
      cases P with
      | nil =>
        have hno : ¬((('?' :: a'').all isSchemeChar && Char.isAlpha '?') = true) := by
          intro hcc
          rw [Bool.and_eq_true] at hcc
          exact absurd hcc.2 (by decide)
        show (if (('?' :: a'').all isSchemeChar && Char.isAlpha '?') = true
              then (String.mk (('?' :: a'').map pyLowerChar), b')
              else (ds, [] ++ '?' :: R')).1 = ds
          ∧ (if (('?' :: a'').all isSchemeChar && Char.isAlpha '?') = true
              then (String.mk (('?' :: a'').map pyLowerChar), b')
              else (ds, [] ++ '?' :: R')).2 = [] ++ '?' :: R'
        rw [if_neg hno]
        exact ⟨rfl, rfl⟩
      | cons p0 pt =>
        have hmem : '?' ∈ p0 :: (pt ++ '?' :: a'') :=
          List.mem_cons_of_mem p0 (List.mem_append.mpr (Or.inr (List.mem_cons_self _ _)))
        have hallf : ((p0 :: (pt ++ '?' :: a'')).all isSchemeChar) = false := by
          cases hall : ((p0 :: (pt ++ '?' :: a'')).all isSchemeChar) with
          | false => rfl
          | true =>
            have := List.all_eq_true.mp hall '?' hmem
            simp [isSchemeChar] at this
        have hno : ¬(((p0 :: (pt ++ '?' :: a'')).all isSchemeChar && p0.isAlpha) = true) := by
          simp [hallf]
        show (if ((p0 :: (pt ++ '?' :: a'')).all isSchemeChar && p0.isAlpha) = true
              then (String.mk ((p0 :: (pt ++ '?' :: a'')).map pyLowerChar), b')
              else (ds, (p0 :: pt) ++ '?' :: R')).1 = ds
          ∧ (if ((p0 :: (pt ++ '?' :: a'')).all isSchemeChar && p0.isAlpha) = true
              then (String.mk ((p0 :: (pt ++ '?' :: a'')).map pyLowerChar), b')
              else (ds, (p0 :: pt) ++ '?' :: R')).2 = (p0 :: pt) ++ '?' :: R'
        rw [if_neg hno]
        exact ⟨rfl, rfl⟩

/-- The netloc split likewise passes an appended `?`-led tail through. -/
theorem netlocSplit_append (A R : List Char)
    (hA : ∀ c ∈ A, c ≠ '?' ∧ c ≠ '#') (hR : R.head? = some '?') :
    (netlocSplit (A ++ R)).2 = (netlocSplit A).2 ++ R := by
  obtain ⟨R', hRR⟩ : ∃ R', R = '?' :: R' := by
    cases R with
    | nil => simp at hR
    | cons c t =>
      have : c = '?' := by simpa using hR
      subst this
      exact ⟨t, rfl⟩
  subst hRR
  match A with
  | [] =>
    unfold netlocSplit
    rw [if_neg (by simp), if_neg (by simp)]
  | [c1] =>
    unfold netlocSplit
    rw [if_neg (by simp), if_neg (by simp)]
  | c1 :: c2 :: A2 =>
    unfold netlocSplit
    by_cases h2 : ([c1, c2] : List Char) = ['/', '/']
    · obtain ⟨h2a, h2b⟩ : c1 = '/' ∧ c2 = '/' := by simpa using h2
      subst h2a
      subst h2b
      rw [if_pos (show (List.take 2 ('/' :: '/' :: A2 ++ '?' :: R') = ['/', '/']) from rfl)]
      rw [if_pos (show (List.take 2 ('/' :: '/' :: A2) = ['/', '/']) from rfl)]
      show (A2 ++ '?' :: R').dropWhile (fun c => !isNetlocEnd c) =
        A2.dropWhile (fun c => !isNetlocEnd c) ++ '?' :: R'
      exact dropWhile_append_headneg _ A2 ('?' :: R') '?' rfl (by decide)
    · rw [if_neg (show ¬(List.take 2 (c1 :: c2 :: A2 ++ '?' :: R') = ['/', '/']) from
            fun hcc => h2 hcc)]
      rw [if_neg (show ¬(List.take 2 (c1 :: c2 :: A2) = ['/', '/']) from
            fun hcc => h2 hcc)]

/-- The path of `urlsplit` is unchanged by appending `?query#fragment`
behind a `?`/`#`-free prefix (with the query `#`-free). -/
theorem urlsplitCore_append (ds : String) (P Q F : List Char)
    (hP : ∀ c ∈ P, c ≠ '?' ∧ c ≠ '#') (hQ : ∀ c ∈ Q, c ≠ '#') :
    (urlsplitCore ds (P ++ '?' :: (Q ++ '#' :: F))).scheme =
      (urlsplitCore ds P).scheme ∧
    (urlsplitCore ds (P ++ '?' :: (Q ++ '#' :: F))).path =
      (urlsplitCore ds P).path := by
  obtain ⟨hs1, hs2⟩ := schemeSplit_append ds P ('?' :: (Q ++ '#' :: F)) hP rfl
  have hPA : ∀ c ∈ (schemeSplit ds P).2, c ≠ '?' ∧ c ≠ '#' := by
    intro c hc
    apply hP
    unfold schemeSplit at hc
    revert hc
    match hs : splitFirst P ':' with
    | some ([], b) => intro hc; exact hc
    | some (c0 :: pre, b) =>
      intro hc
      dsimp only at hc
      by_cases hcond : ((c0 :: pre).all isSchemeChar && c0.isAlpha) = true
      · rw [if_pos hcond] at hc
        have hdec := (splitFirst_eq P ':' (c0 :: pre) b hs).1
        rw [hdec]
        exact List.mem_append.mpr (Or.inr (List.mem_cons_of_mem _ hc))
      · rw [if_neg hcond] at hc
        exact hc
    | none => intro hc; exact hc
  have hn := netlocSplit_append (schemeSplit ds P).2 ('?' :: (Q ++ '#' :: F)) hPA rfl
  have hPB : ∀ c ∈ (netlocSplit (schemeSplit ds P).2).2, c ≠ '?' ∧ c ≠ '#' := by
    intro c hc
    apply hPA
    unfold netlocSplit at hc
    revert hc
    split
    · intro hc
      exact List.drop_subset 2 _ (List.dropWhile_subset _ hc)
    · intro hc
      exact hc
  constructor
  · exact hs1
  · show String.mk (querySplit (fragSplit (netlocSplit (schemeSplit ds
        (P ++ '?' :: (Q ++ '#' :: F))).2).2).1).1 = _
    rw [hs2, hn]
    have hfrag_comb :
        (fragSplit ((netlocSplit (schemeSplit ds P).2).2 ++ '?' :: (Q ++ '#' :: F))).1 =
          (netlocSplit (schemeSplit ds P).2).2 ++ '?' :: Q := by
      unfold fragSplit
      rw [show (netlocSplit (schemeSplit ds P).2).2 ++ '?' :: (Q ++ '#' :: F) =
            ((netlocSplit (schemeSplit ds P).2).2 ++ '?' :: Q) ++ '#' :: F by simp]
      rw [splitFirst_marker _ F '#' (by
        intro hm
        rcases List.mem_append.mp hm with hm | hm
        · exact (hPB '#' hm).2 rfl
        · rcases List.mem_cons.mp hm with hm | hm
          · exact absurd hm (by decide)
          · exact hQ '#' hm rfl)]
    have hquery_comb :
        (querySplit ((netlocSplit (schemeSplit ds P).2).2 ++ '?' :: Q)).1 =
          (netlocSplit (schemeSplit ds P).2).2 := by
      unfold querySplit
      rw [splitFirst_marker _ Q '?' (fun hm => (hPB '?' hm).1 rfl)]
    have hfrag_P : (fragSplit (netlocSplit (schemeSplit ds P).2).2).1 =
        (netlocSplit (schemeSplit ds P).2).2 := by
      unfold fragSplit
      rw [splitFirst_none_of_not_mem _ '#' (fun hm => (hPB '#' hm).2 rfl)]
    have hquery_P : (querySplit (netlocSplit (schemeSplit ds P).2).2).1 =
        (netlocSplit (schemeSplit ds P).2).2 := by
      unfold querySplit
      rw [splitFirst_none_of_not_mem _ '?' (fun hm => (hPB '?' hm).1 rfl)]
    rw [hfrag_comb, hquery_comb]
    rw [show (urlsplitCore ds P).path =
          String.mk (querySplit (fragSplit (netlocSplit (schemeSplit ds P).2).2).1).1
        from rfl]
    rw [hfrag_P, hquery_P]

/-- The scheme and path of `urlsplit` ignore an appended
`?query#fragment`. -/
theorem pyUrlsplit_append (p q f : String)
    (hp : ∀ c ∈ p.data, c ≠ '?' ∧ c ≠ '#') (hq : ∀ c ∈ q.data, c ≠ '#') :
    (pyUrlsplit (p ++ "?" ++ q ++ "#" ++ f) "").scheme = (pyUrlsplit p "").scheme ∧
    (pyUrlsplit (p ++ "?" ++ q ++ "#" ++ f) "").path = (pyUrlsplit p "").path := by
  have hdata : (p ++ "?" ++ q ++ "#" ++ f).data =
      p.data ++ '?' :: (q.data ++ '#' :: f.data) := by
    rw [data_append, data_append, data_append, data_append]
    simp
  unfold pyUrlsplit
  rw [hdata]
  rw [dropWhile_append_headneg isC0OrSpace p.data ('?' :: (q.data ++ '#' :: f.data))
    '?' rfl (by decide)]
  unfold removeUnsafe
  rw [List.filter_append, List.filter_cons, if_pos (by decide), List.filter_append,
      List.filter_cons, if_pos (by decide)]
  apply urlsplitCore_append
  · intro c hc
    exact hp c (List.dropWhile_subset _ (List.mem_of_mem_filter hc))
  · intro c hc
    exact hq c (List.mem_of_mem_filter hc)

theorem pyUrlparse_path (url ds : String) :
    (pyUrlparse url ds).path =
      (if usesParamsList.contains (pyUrlsplit url ds).scheme &&
          (pyUrlsplit url ds).path.data.contains ';' then
        String.mk (splitParams (pyUrlsplit url ds).path.data).1
      else (pyUrlsplit url ds).path) := by
  unfold pyUrlparse
  dsimp only
  split <;> rfl

/-- The path component of `urlparse` ignores an appended
`?query#fragment`. -/
theorem pyUrlparse_path_append (p q f : String)
    (hp : ∀ c ∈ p.data, c ≠ '?' ∧ c ≠ '#') (hq : ∀ c ∈ q.data, c ≠ '#') :
    (pyUrlparse (p ++ "?" ++ q ++ "#" ++ f) "").path = (pyUrlparse p "").path := by
  obtain ⟨hsch, hpath⟩ := pyUrlsplit_append p q f hp hq
  rw [pyUrlparse_path, pyUrlparse_path, hsch, hpath]

/-- **C9.** For every resolved font URL, the file extension used in the
written filename is the suffix of the URL's path component — appending a
query string and fragment leaves the parsed path, hence the extension,
unchanged — and defaults to `.woff2` when the path has no suffix. -/
theorem ext_spec :
    (∀ url : String,
      extOf url = (if pathSuffix (pyUrlparse url "").path = "" then ".woff2"
                   else pathSuffix (pyUrlparse url "").path)) ∧
    (∀ p q f : String, (∀ c ∈ p.data, c ≠ '?' ∧ c ≠ '#') → (∀ c ∈ q.data, c ≠ '#') →
      (pyUrlparse (p ++ "?" ++ q ++ "#" ++ f) "").path = (pyUrlparse p "").path ∧
      extOf (p ++ "?" ++ q ++ "#" ++ f) = extOf p) ∧
    extOf "http://h/a.woff2?v=1#frag" = ".woff2" ∧
    extOf "http://h/a" = ".woff2" ∧
    extOf "http://h/a.ttf" = ".ttf" := by
  refine ⟨fun url => rfl, ?_, by decide, by decide, by decide⟩
  intro p q f hp hq
  have hparse := pyUrlparse_path_append p q f hp hq
  refine ⟨hparse, ?_⟩
  unfold extOf
  rw [hparse]

/-- Witness for C9 at a concrete URL, query and fragment. -/
theorem ext_spec_witness :
    (∀ c ∈ "http://h/a.woff2".data, c ≠ '?' ∧ c ≠ '#') ∧
    (∀ c ∈ "v=1".data, c ≠ '#') ∧
    extOf ("http://h/a.woff2" ++ "?" ++ "v=1" ++ "#" ++ "frag") = extOf "http://h/a.woff2" :=
  ⟨by decide, by decide,
   (ext_spec.2.1 "http://h/a.woff2" "v=1" "frag" (by decide) (by decide)).2⟩

end DownloadFonts
